import Mathlib

/-!
# Verification of the Plonky3 monty-31 forward FFT and Poseidon configuration

Shallow embedding of `src/monty-31/src/dft/forward.rs` and
`src/poseidon/src/lib.rs`.

Field elements of `MontyField31<MP>` are canonical residues modulo the odd
prime `P = MP::PRIME` (the Montgomery representation is external to the
excerpted sources; per the spec, §1/§6, the representation and its operators
`+`, `-`, `*` and the reduction primitive are treated as a given capability).
We therefore model a field element as a `ℕ` smaller than `P`, and buffers as
`List ℕ`.  All operations reduce modulo `P`.

Mutating functions are modelled as functions on lists.  Functions that can
abort (Rust `assert!`/index panics) return `Except (List ℕ) (List ℕ)`:
`.error e` means the computation aborted with the buffer holding `e` at the
abort point, `.ok out` means it ran to completion leaving `out`.
-/

namespace Plonky3

/-- Modelled from the spec (§6, field capability): canonical addition
modulo `P` — the `+` operator of `MontyField31`. -/
def fadd (P x y : ℕ) : ℕ := (x + y) % P

/-- Modelled from the spec (§6, field capability): canonical subtraction
modulo `P` — the `-` operator of `MontyField31` (`(P + x - y) mod P`,
computed without branching, §4.2). -/
def fsub (P x y : ℕ) : ℕ := (P + x - y) % P

/-- Modelled from the spec (§6, field capability): combined
multiply-and-reduce — `monty_reduce` applied to a double-width product,
composed with `new_monty`.  At the level of canonical residues this is
multiplication modulo `P`. -/
def fmul (P x y : ℕ) : ℕ := x * y % P

/-- Modelled from the spec (§6): the `Powers` iterator of a field element;
`fpow P g k` is the canonical residue of `g^k`. -/
def fpow (P g k : ℕ) : ℕ := g ^ k % P

/-- Modelled from the spec (§4.1): the first `n` successive powers
`[g^0, g^1, ..., g^(n-1)]` (canonical), i.e. `gen.powers().take(n)`. -/
def fpowers (P g n : ℕ) : List ℕ := (List.range n).map (fpow P g)

/-- Modelled from the spec (§4.1/§4.5, `log2_strict_usize` of `p3_util`):
base-2 logarithm (fuelled structural recursion; the strictness check —
panic when the argument is not a power of two — is performed at use sites). -/
def lg2Go : ℕ → ℕ → ℕ
  | 0, _ => 0
  | fuel + 1, n => if n ≤ 1 then 0 else lg2Go fuel (n / 2) + 1

/-- `lg2 n` is `⌊log₂ n⌋` (and `0` for `n = 0`). -/
def lg2 (n : ℕ) : ℕ := lg2Go n n

/-- `iter.step_by(s)`: every `s`-th element of a list, starting with the
first (fuelled structural recursion, `stepBy` below). -/
def stepByGo (s : ℕ) : ℕ → List ℕ → List ℕ
  | 0, _ => []
  | _, [] => []
  | fuel + 1, x :: xs => x :: stepByGo s fuel (xs.drop (s - 1))

/-- `l.iter().step_by(s)` of `forward.rs` line 33. -/
def stepBy (s : ℕ) (l : List ℕ) : List ℕ := stepByGo s l.length l

/-- `MontyField31::roots_of_unity_table` (forward.rs lines 25–35), with the
two-adic generator `gen = two_adic_generator(lg_n)` supplied as the
parameter `g` (it is an external capability, §4.1):
`table[i] = nth_roots.step_by(2^i)` where
`nth_roots = [1, g, ..., g^(n/2 - 1)]`. -/
def roots_of_unity_table (P g n : ℕ) : List (List ℕ) :=
  let lg_n := lg2 n
  let half_n := 2 ^ (lg_n - 1)
  let nth_roots := fpowers P g half_n
  (List.range (lg_n - 1)).map (fun i => stepBy (2 ^ i) nth_roots)

/-- Three-list `izip!` + map, truncating at the shortest list. -/
def map3 (f : ℕ → ℕ → ℕ → ℕ) : List ℕ → List ℕ → List ℕ → List ℕ
  | x :: xs, y :: ys, z :: zs => f x y z :: map3 f xs ys zs
  | _, _, _ => []

/-- The element-wise `x + y` half of a butterfly stage
(`a0[k] = x + y` / `*x += *y`). -/
def passTop (P : ℕ) (top tail : List ℕ) : List ℕ :=
  List.zipWith (fadd P) top tail

/-- The element-wise `(x - y) * root` half of a butterfly stage as computed
by the packed paths (field subtraction, then multiply-reduce):
`let t = x - y; a1[k] = t * roots[k]`. -/
def passTailP (P : ℕ) (top tail roots : List ℕ) : List ℕ :=
  map3 (fun x y r => fmul P (fsub P x y) r) top tail roots

/-- `(P + x.value - y.value) as u64 * w.value`, monty-reduced: the scalar
butterfly's second component (forward.rs lines 205–209). -/
def bfly2 (P x y r : ℕ) : ℕ := (P + x - y) * r % P

/-- `MontyField31::forward_butterfly` (forward.rs lines 203–210). -/
def forward_butterfly (P x y w : ℕ) : ℕ × ℕ :=
  (fadd P x y, bfly2 P x y w)

/-- The packed branch of `forward_pass` (forward.rs lines 220–228): lanes
apply the same field operations element-wise (vector-lane capability, §6),
so the buffer becomes `top' ++ tail'` with
`top'[k] = top[k] + tail[k]`, `tail'[k] = (top[k] - tail[k]) * roots[k]`.
Elements beyond the zipped range are left in place. -/
def forward_pass_packed (P : ℕ) (a roots : List ℕ) : Except (List ℕ) (List ℕ) :=
  let h := a.length / 2
  let top := a.take h
  let tail := a.drop h
  .ok (passTop P top tail ++ passTailP P top tail roots ++ tail.drop h)

/-- The scalar branch of `forward_pass` (forward.rs lines 229–238): index 0
is a plain add/subtract (its twiddle is 1), the rest are
`forward_butterfly`; indexing `top[0]`/`tail[0]` of an empty half is a
panic, modelled as `.error a`. -/
def forward_pass_scalar (P : ℕ) (a roots : List ℕ) : Except (List ℕ) (List ℕ) :=
  let h := a.length / 2
  let top := a.take h
  let tail := a.drop h
  match top, tail, roots with
  | x :: top1, y :: tail1, _ :: roots1 =>
    .ok ((fadd P x y :: passTop P top1 tail1)
      ++ (fsub P x y :: map3 (bfly2 P) top1 tail1 roots1)
      ++ tail.drop h)
  | _, _, _ => .error a

/-- `MontyField31::forward_pass` (forward.rs lines 212–239): assert
`roots.len() == half_n`, then take the packed path when
`half_n >= Packing::WIDTH` (= `W`), the scalar path otherwise. -/
def forward_pass (P W : ℕ) (a roots : List ℕ) : Except (List ℕ) (List ℕ) :=
  if roots.length ≠ a.length / 2 then .error a
  else if W ≤ a.length / 2 then forward_pass_packed P a roots
  else forward_pass_scalar P a roots

/-- `forward_small_s0` (forward.rs lines 40–65): the fused stage-0 packed
pass; asserts `m % WIDTH == 0`, then performs the packed butterflies over
the two halves. -/
def forward_small_s0 (P W : ℕ) (a roots : List ℕ) : Except (List ℕ) (List ℕ) :=
  let m := a.length / 2
  if m % W ≠ 0 then .error a
  else
    .ok (passTop P (a.take m) (a.drop m)
      ++ passTailP P (a.take m) (a.drop m) roots)

/-- `forward_small_s1` (forward.rs lines 67–106): the fused stage-1 packed
pass; the buffer splits into quarters `u0 u1 v0 v1`, and the same packed
roots are applied to `(u0,u1)` and `(v0,v1)`.  Asserts `m % WIDTH == 0`. -/
def forward_small_s1 (P W : ℕ) (a roots : List ℕ) : Except (List ℕ) (List ℕ) :=
  let n := a.length
  let m := n / 4
  if m % W ≠ 0 then .error a
  else
    let u := a.take (n / 2)
    let v := a.drop (n / 2)
    .ok (passTop P (u.take (n / 4)) (u.drop (n / 4))
      ++ passTailP P (u.take (n / 4)) (u.drop (n / 4)) roots
      ++ passTop P (v.take (n / 4)) (v.drop (n / 4))
      ++ passTailP P (v.take (n / 4)) (v.drop (n / 4)) roots)

/-- One block of the scalar stage loop of `forward_small` (forward.rs lines
190–197): butterflies between `a[offset + k]` and `a[offset + k + m]`
using `roots[k]`, on a block of size `2 m`. -/
def blockPass (P m : ℕ) (roots b : List ℕ) : List ℕ :=
  List.zipWith (fadd P) (b.take m) (b.drop m)
    ++ map3 (bfly2 P) (b.take m) (b.drop m) roots

/-- Fuelled traversal of all `1 << s` blocks of the scalar stage loop
(forward.rs lines 187–198). -/
def blocksGo (P m : ℕ) (roots : List ℕ) : ℕ → List ℕ → List ℕ
  | 0, a => a
  | fuel + 1, a =>
    if a.isEmpty then []
    else blockPass P m roots (a.take (2 * m))
      ++ blocksGo P m roots fuel (a.drop (2 * m))

/-- The scalar stage loop of `forward_small`: the buffer processed in
consecutive blocks of size `2 m`. -/
def blocksPass (P m : ℕ) (roots a : List ℕ) : List ℕ :=
  blocksGo P m roots a.length a

/-- One iteration of `forward_small`'s stage loop (forward.rs lines
172–199) at `lg_m`, followed by the remaining iterations: looks up
`roots = root_table[s]` (or the synthesized `[one()]` when `lg_m = 0`),
asserts `roots.len() == m`, and dispatches to `forward_small_s0` /
`forward_small_s1` / the scalar block loop. -/
def forward_small_go (P W lg_n : ℕ) (table : List (List ℕ)) :
    ℕ → List ℕ → Except (List ℕ) (List ℕ)
  | 0, a => .ok a
  | lg_m + 1, a =>
    let s := lg_n - lg_m - 1
    let m := 2 ^ lg_m
    match (if lg_m ≠ 0 then table.get? s else some [1 % P]) with
    | none => .error a
    | some roots =>
      if roots.length ≠ m then .error a
      else
        match
          (if s = 0 ∧ W ≤ a.length / 2 then forward_small_s0 P W a roots
           else if s = 1 ∧ W ≤ a.length / 4 then forward_small_s1 P W a roots
           else .ok (blocksPass P m roots a)) with
        | .error e => .error e
        | .ok a1 => forward_small_go P W lg_n table lg_m a1

/-- `MontyField31::forward_small` (forward.rs lines 165–201):
`lg_n = log2_strict_usize(n)` (which aborts when `n` is not a power of
two), then the breadth-first stage loop from `lg_m = lg_n - 1` down to
`0`. -/
def forward_small (P W : ℕ) (a : List ℕ) (table : List (List ℕ)) :
    Except (List ℕ) (List ℕ) :=
  if a.length = 2 ^ lg2 a.length then
    forward_small_go P W (lg2 a.length) table (lg2 a.length) a
  else .error a

/-- `MontyField31::forward_2` (forward.rs lines 242–249). -/
def forward_2 (P : ℕ) (a : List ℕ) : Except (List ℕ) (List ℕ) :=
  if a.length ≠ 2 then .error a
  else .ok [fadd P (a.getD 0 0) (a.getD 1 0), fsub P (a.getD 0 0) (a.getD 1 0)]

/-- `MontyField31::forward_4` (forward.rs lines 252–269), with the
precomputed fourth-root-of-unity constant `MP::ROOTS_8.as_ref()[2]`
supplied as the parameter `w4` (a named external constant, §6). -/
def forward_4 (P w4 : ℕ) (a : List ℕ) : Except (List ℕ) (List ℕ) :=
  if a.length ≠ 4 then .error a
  else
    let a0 := a.getD 0 0
    let a1 := a.getD 1 0
    let a2 := a.getD 2 0
    let a3 := a.getD 3 0
    let t1 := P + a1 - a3
    let t3 := t1 * w4 % P
    let t5 := fadd P a1 a3
    let t4 := fadd P a0 a2
    let t2 := fsub P a0 a2
    .ok [fadd P t4 t5, fsub P t4 t5, fadd P t2 t3, fsub P t2 t3]

/-- Sequencing of the two recursive half-size kernel calls: the first half
is transformed, then the second; an abort in either leaves the other
half's current contents in place. -/
def seqHalves (f g : List ℕ → Except (List ℕ) (List ℕ)) (h : ℕ)
    (a : List ℕ) : Except (List ℕ) (List ℕ) :=
  match f (a.take h) with
  | .error e => .error (e ++ a.drop h)
  | .ok b =>
    match g (a.drop h) with
    | .error e => .error (b ++ e)
    | .ok c => .ok (b ++ c)

/-- `MontyField31::forward_8` (forward.rs lines 272–281); `r8` is the
external constant table `MP::ROOTS_8` (§6). -/
def forward_8 (P W : ℕ) (r8 : List ℕ) (a : List ℕ) : Except (List ℕ) (List ℕ) :=
  if a.length ≠ 8 then .error a
  else
    match forward_pass P W a r8 with
    | .error e => .error e
    | .ok a1 => seqHalves (forward_4 P (r8.getD 2 0)) (forward_4 P (r8.getD 2 0)) 4 a1

/-- `MontyField31::forward_16` (forward.rs lines 284–293); `r16` is the
external constant table `MP::ROOTS_16` (§6). -/
def forward_16 (P W : ℕ) (r8 r16 : List ℕ) (a : List ℕ) :
    Except (List ℕ) (List ℕ) :=
  if a.length ≠ 16 then .error a
  else
    match forward_pass P W a r16 with
    | .error e => .error e
    | .ok a1 => seqHalves (forward_8 P W r8) (forward_8 P W r8) 8 a1

/-- `MontyField31::forward_32` (forward.rs lines 296–305): a pass with
`root_table[0]` (an index panic when the table is empty), then two
`forward_16`s. -/
def forward_32 (P W : ℕ) (r8 r16 : List ℕ) (a : List ℕ)
    (table : List (List ℕ)) : Except (List ℕ) (List ℕ) :=
  if a.length ≠ 32 then .error a
  else
    match table with
    | [] => .error a
    | r0 :: _ =>
      match forward_pass P W a r0 with
      | .error e => .error e
      | .ok a1 => seqHalves (forward_16 P W r8 r16) (forward_16 P W r8 r16) 16 a1

/-- `MontyField31::forward_64` (forward.rs lines 308–317). -/
def forward_64 (P W : ℕ) (r8 r16 : List ℕ) (a : List ℕ)
    (table : List (List ℕ)) : Except (List ℕ) (List ℕ) :=
  if a.length ≠ 64 then .error a
  else
    match table with
    | [] => .error a
    | r0 :: rest =>
      match forward_pass P W a r0 with
      | .error e => .error e
      | .ok a1 =>
        seqHalves (fun b => forward_32 P W r8 r16 b rest)
          (fun b => forward_32 P W r8 r16 b rest) 32 a1

/-- `MontyField31::forward_128` (forward.rs lines 320–329). -/
def forward_128 (P W : ℕ) (r8 r16 : List ℕ) (a : List ℕ)
    (table : List (List ℕ)) : Except (List ℕ) (List ℕ) :=
  if a.length ≠ 128 then .error a
  else
    match table with
    | [] => .error a
    | r0 :: rest =>
      match forward_pass P W a r0 with
      | .error e => .error e
      | .ok a1 =>
        seqHalves (fun b => forward_64 P W r8 r16 b rest)
          (fun b => forward_64 P W r8 r16 b rest) 64 a1

/-- `MontyField31::forward_256` (forward.rs lines 332–341). -/
def forward_256 (P W : ℕ) (r8 r16 : List ℕ) (a : List ℕ)
    (table : List (List ℕ)) : Except (List ℕ) (List ℕ) :=
  if a.length ≠ 256 then .error a
  else
    match table with
    | [] => .error a
    | r0 :: rest =>
      match forward_pass P W a r0 with
      | .error e => .error e
      | .ok a1 =>
        seqHalves (fun b => forward_128 P W r8 r16 b rest)
          (fun b => forward_128 P W r8 r16 b rest) 128 a1

/-- `MontyField31::forward_fft` (forward.rs lines 344–377): trivial `n = 1`
case; breadth-first path for `2 < n <= 1024`; otherwise the assertion
`n == 1 << (root_table.len() + 1)` followed by the size dispatch, whose
default arm is one pass plus two recursive calls on the halves with the
table's first level dropped. -/
def forward_fft (P W : ℕ) (r8 r16 : List ℕ) :
    List ℕ → List (List ℕ) → Except (List ℕ) (List ℕ)
  | a, table =>
    if a.length = 1 then .ok a
    else if 2 < a.length ∧ a.length ≤ 1024 then forward_small P W a table
    else if a.length ≠ 2 ^ (table.length + 1) then .error a
    else if a.length = 256 then forward_256 P W r8 r16 a table
    else if a.length = 128 then forward_128 P W r8 r16 a table
    else if a.length = 64 then forward_64 P W r8 r16 a table
    else if a.length = 32 then forward_32 P W r8 r16 a table
    else if a.length = 16 then forward_16 P W r8 r16 a
    else if a.length = 8 then forward_8 P W r8 a
    else if a.length = 4 then forward_4 P (r8.getD 2 0) a
    else if a.length = 2 then forward_2 P a
    else
      match table with
      | [] => .error a
      | r0 :: rest =>
        match forward_pass P W a r0 with
        | .error e => .error e
        | .ok a1 =>
          match forward_fft P W r8 r16 (a1.take (a.length / 2)) rest with
          | .error e => .error (e ++ a1.drop (a.length / 2))
          | .ok b =>
            match forward_fft P W r8 r16 (a1.drop (a.length / 2)) rest with
            | .error e => .error (b ++ e)
            | .ok c => .ok (b ++ c)

/-- The unrolled-kernel dispatch of `forward_fft`'s `match` (forward.rs
lines 356–364) restricted to the fixed sizes 4..256. -/
def kernel_dispatch (P W : ℕ) (r8 r16 : List ℕ) (a : List ℕ)
    (table : List (List ℕ)) : Except (List ℕ) (List ℕ) :=
  if a.length = 256 then forward_256 P W r8 r16 a table
  else if a.length = 128 then forward_128 P W r8 r16 a table
  else if a.length = 64 then forward_64 P W r8 r16 a table
  else if a.length = 32 then forward_32 P W r8 r16 a table
  else if a.length = 16 then forward_16 P W r8 r16 a
  else if a.length = 8 then forward_8 P W r8 a
  else if a.length = 4 then forward_4 P (r8.getD 2 0) a
  else .error a

/-! ## Reference definitions

The decimation-in-frequency recursion (`difNat` and its `ZMod`
counterpart `difZ`), the direct DFT, bit reversal, the per-stage root
lists and the breadth-first stage runner: these are the yardsticks the
implementation above is measured against. -/

/-- The canonical decimation-in-frequency recursion over canonical
residues: split, butterfly with twiddles `[g^0, ..., g^(m-1)]`, recurse
on the halves with the squared generator. -/
def difNat (P : ℕ) : ℕ → ℕ → List ℕ → List ℕ
  | _, 0, a => a
  | g, L + 1, a =>
    let m := 2 ^ L
    let top := a.take m
    let tail := a.drop m
    difNat P (g * g % P) L (passTop P top tail)
      ++ difNat P (g * g % P) L (passTailP P top tail (fpowers P g m))

/-- The per-stage twiddle lists consumed by an `L`-stage DIF transform
with generator `g`: `[g^0..g^(2^(L-1)-1)]`, then the same for `g^2`, and
so on down to the singleton `[1]`. -/
def difRoots (P : ℕ) : ℕ → ℕ → List (List ℕ)
  | _, 0 => []
  | g, L + 1 => fpowers P g (2 ^ L) :: difRoots P (g * g % P) L

/-- The twiddle table of an order-`2^L` transform in recursive form:
levels `0 .. L-2`, level `i` holding the powers of `g^(2^i)` up to the
half-length.  `roots_of_unity_table P g (2^L)` computes exactly this. -/
def difTable (P : ℕ) : ℕ → ℕ → List (List ℕ)
  | _, 0 => []
  | _, 1 => []
  | g, L + 2 => fpowers P g (2 ^ (L + 1)) :: difTable P (g * g % P) (L + 1)

/-- Breadth-first execution of a DIF transform: one scalar block stage
per root list, outermost first; with `rs.length = L` and a buffer of
length `2^L` the stage with `k` root lists remaining acts on blocks of
size `2^(k+1)`. -/
def runStages (P : ℕ) : List (List ℕ) → List ℕ → List ℕ
  | [], a => a
  | r :: rs, a => runStages P rs (blocksPass P (2 ^ rs.length) r a)

/-- Bit reversal of an `L`-bit index: the low bit of `i` becomes the high
bit of the result. -/
def bitrev : ℕ → ℕ → ℕ
  | 0, _ => 0
  | L + 1, i => bitrev L (i / 2) + i % 2 * 2 ^ L

/-- Three-list zip-map over a commutative ring (the `ZMod P` counterpart
of `map3`). -/
def zip3 {R : Type} (f : R → R → R → R) : List R → List R → List R → List R
  | x :: xs, y :: ys, z :: zs => f x y z :: zip3 f xs ys zs
  | _, _, _ => []

/-- The DIF recursion over an arbitrary commutative ring. -/
def difZ {R : Type} [CommRing R] : R → ℕ → List R → List R
  | _, 0, a => a
  | g, L + 1, a =>
    let m := 2 ^ L
    let top := a.take m
    let tail := a.drop m
    difZ (g * g) L (List.zipWith (fun x y => x + y) top tail)
      ++ difZ (g * g) L
        (zip3 (fun x y r => (x - y) * r) top tail ((List.range m).map (g ^ ·)))

/-- The direct discrete Fourier transform: coefficient `k` of the
evaluation of `a` at the powers of `g`. -/
def dft {R : Type} [CommRing R] (g : R) (a : List R) (k : ℕ) : R :=
  ∑ j in Finset.range a.length, a.getD j 0 * g ^ (j * k)

/-- Cast a buffer of canonical residues into `ZMod P`. -/
def castL (P : ℕ) (a : List ℕ) : List (ZMod P) :=
  a.map Nat.cast

/-! ## Poseidon (src/poseidon/src/lib.rs) -/

/-- The `Poseidon<F, Mds, WIDTH, ALPHA>` configuration struct (lib.rs
lines 18–23); the const generics are irrelevant to the stored data. -/
structure Poseidon (F M : Type) where
  half_num_full_rounds : ℕ
  num_partial_rounds : ℕ
  constants : List F
  mds : M

/-- `Poseidon::new` (lib.rs lines 33–47): computes
`num_rounds = 2 * half_num_full_rounds + num_partial_rounds`, asserts
`constants.len() == WIDTH * num_rounds` (a panic on mismatch, modelled as
`none`), and stores the arguments. -/
def Poseidon.new (F M : Type) (WIDTH : ℕ) (half_num_full_rounds : ℕ)
    (num_partial_rounds : ℕ) (constants : List F) (mds : M) :
    Option (Poseidon F M) :=
  let num_rounds := 2 * half_num_full_rounds + num_partial_rounds
  if constants.length = WIDTH * num_rounds then
    some ⟨half_num_full_rounds, num_partial_rounds, constants, mds⟩
  else none

/-- Iterated canonical squaring: `sqIter P g k` is the canonical residue
of `g^(2^k)`, the generator `k` levels down the two-adic chain. -/
def sqIter (P : ℕ) : ℕ → ℕ → ℕ
  | g, 0 => g
  | g, k + 1 => sqIter P (g * g % P) k

/-- The per-stage root lists consumed by `forward_small_go` with `k`
stages remaining: the stage at `lg_m` reads `table[lg_n - lg_m - 1]`,
except the last stage (`lg_m = 0`), which synthesizes `[one()]`. -/
def stageRoots (P lg_n : ℕ) (table : List (List ℕ)) : ℕ → List (List ℕ)
  | 0 => []
  | k + 1 =>
    (if k ≠ 0 then table.getD (lg_n - k - 1) [] else [1 % P]) ::
      stageRoots P lg_n table k

/-! ## Basic arithmetic lemmas -/

theorem fadd_lt (P x y : ℕ) (hP : 0 < P) : fadd P x y < P := Nat.mod_lt _ hP

theorem fsub_lt (P x y : ℕ) (hP : 0 < P) : fsub P x y < P := Nat.mod_lt _ hP

theorem fmul_lt (P x y : ℕ) (hP : 0 < P) : fmul P x y < P := Nat.mod_lt _ hP

theorem fpow_lt (P g k : ℕ) (hP : 0 < P) : fpow P g k < P := Nat.mod_lt _ hP

/-- The scalar butterfly's multiply (`monty_reduce((P + x - y) * w)`) and
the packed path's field-subtract-then-multiply agree on the nose. -/
theorem bfly2_eq_fmul_fsub (P x y r : ℕ) :
    bfly2 P x y r = fmul P (fsub P x y) r := by
  unfold bfly2 fmul fsub
  exact Nat.mod_mul_mod.symm

theorem fmul_one_right (P x : ℕ) (hx : x < P) : fmul P x 1 = x := by
  unfold fmul
  rw [mul_one, Nat.mod_eq_of_lt hx]

theorem one_mod_eq_one (P : ℕ) (hP : 1 < P) : 1 % P = 1 := Nat.mod_eq_of_lt hP

theorem fpow_zero (P g : ℕ) : fpow P g 0 = 1 % P := by simp [fpow]

theorem fpow_mod (P g k : ℕ) : fpow P (g % P) k = fpow P g k := by
  simp [fpow, Nat.pow_mod]

theorem fpow_pow (P g s k : ℕ) : fpow P (g ^ s) k = fpow P g (s * k) := by
  simp [fpow, pow_mul]

theorem fpow_sq (P g k : ℕ) : fpow P (g * g % P) k = fpow P g (2 * k) := by
  rw [← pow_two, fpow_mod, fpow_pow]

/-! ## Cast lemmas into `ZMod P` -/

theorem cast_fadd (P x y : ℕ) : ((fadd P x y : ℕ) : ZMod P) = (x : ZMod P) + y := by
  simp [fadd]

theorem cast_fsub (P x y : ℕ) (hy : y ≤ P) :
    ((fsub P x y : ℕ) : ZMod P) = (x : ZMod P) - y := by
  have h : y ≤ P + x := le_add_right hy
  simp [fsub, Nat.cast_sub h]

theorem cast_fmul (P x y : ℕ) : ((fmul P x y : ℕ) : ZMod P) = (x : ZMod P) * y := by
  simp [fmul]

theorem cast_fpow (P g k : ℕ) : ((fpow P g k : ℕ) : ZMod P) = (g : ZMod P) ^ k := by
  simp [fpow]

theorem cast_bfly2 (P x y r : ℕ) (hy : y ≤ P) :
    ((bfly2 P x y r : ℕ) : ZMod P) = ((x : ZMod P) - y) * r := by
  rw [bfly2_eq_fmul_fsub, cast_fmul, cast_fsub P x y hy]

/-! ## List plumbing -/

theorem map3_nil (f : ℕ → ℕ → ℕ → ℕ) (ys zs : List ℕ) : map3 f [] ys zs = [] := by
  cases ys <;> cases zs <;> rfl

theorem map3_cons (f : ℕ → ℕ → ℕ → ℕ) (x y z : ℕ) (xs ys zs : List ℕ) :
    map3 f (x :: xs) (y :: ys) (z :: zs) = f x y z :: map3 f xs ys zs := rfl

theorem map3_length (f : ℕ → ℕ → ℕ → ℕ) :
    ∀ xs ys zs : List ℕ,
      (map3 f xs ys zs).length = min xs.length (min ys.length zs.length)
  | [], ys, zs => by cases ys <;> cases zs <;> simp [map3]
  | x :: xs, [], zs => by simp [map3]
  | x :: xs, y :: ys, [] => by simp [map3]
  | x :: xs, y :: ys, z :: zs => by
    simp [map3, map3_length f xs ys zs]
    omega

theorem map3_congr (f g : ℕ → ℕ → ℕ → ℕ)
    (h : ∀ x y z, f x y z = g x y z) :
    ∀ xs ys zs : List ℕ, map3 f xs ys zs = map3 g xs ys zs
  | [], ys, zs => by cases ys <;> cases zs <;> rfl
  | x :: xs, [], zs => by cases zs <;> rfl
  | x :: xs, y :: ys, [] => rfl
  | x :: xs, y :: ys, z :: zs => by
    rw [map3_cons, map3_cons, h, map3_congr f g h xs ys zs]

theorem map3_getD (f : ℕ → ℕ → ℕ → ℕ) :
    ∀ (xs ys zs : List ℕ) (k : ℕ),
      k < xs.length → k < ys.length → k < zs.length →
      (map3 f xs ys zs).getD k 0 = f (xs.getD k 0) (ys.getD k 0) (zs.getD k 0)
  | x :: xs, y :: ys, z :: zs, 0, _, _, _ => rfl
  | x :: xs, y :: ys, z :: zs, k + 1, hx, hy, hz => by
    simpa [map3_cons] using
      map3_getD f xs ys zs k (by simpa using hx) (by simpa using hy)
        (by simpa using hz)

theorem zipWith_getD (f : ℕ → ℕ → ℕ) :
    ∀ (xs ys : List ℕ) (k : ℕ), k < xs.length → k < ys.length →
      (List.zipWith f xs ys).getD k 0 = f (xs.getD k 0) (ys.getD k 0)
  | x :: xs, y :: ys, 0, _, _ => rfl
  | x :: xs, y :: ys, k + 1, hx, hy => by
    simpa using zipWith_getD f xs ys k (by simpa using hx) (by simpa using hy)

theorem range_map_getD {α : Type} (f : ℕ → α) (d : α) (m k : ℕ) (hk : k < m) :
    ((List.range m).map f).getD k d = f k := by
  rw [List.getD_eq_getElem?_getD, List.getElem?_map, List.getElem?_range hk]
  rfl

theorem castL_getD (P : ℕ) :
    ∀ (l : List ℕ) (k : ℕ), (castL P l).getD k 0 = ((l.getD k 0 : ℕ) : ZMod P)
  | [], k => by simp [castL]
  | x :: xs, 0 => rfl
  | x :: xs, k + 1 => by simpa [castL] using castL_getD P xs k

theorem castL_append (P : ℕ) (l1 l2 : List ℕ) :
    castL P (l1 ++ l2) = castL P l1 ++ castL P l2 := by
  unfold castL
  exact List.map_append _ _ _

theorem castL_length (P : ℕ) (l : List ℕ) : (castL P l).length = l.length := by
  unfold castL
  exact List.length_map _ _

/-! ## `lg2` -/

theorem lg2Go_eq_log (fuel n : ℕ) (h : n ≤ fuel) : lg2Go fuel n = Nat.log 2 n := by
  induction fuel generalizing n with
  | zero =>
    interval_cases n
    simp [lg2Go]
  | succ fuel ih =>
    unfold lg2Go
    by_cases h1 : n ≤ 1
    · interval_cases n <;> simp
    · push_neg at h1
      rw [if_neg (by omega)]
      have hd : n / 2 ≤ fuel := by omega
      rw [ih _ hd, Nat.log_div_base 2 n]
      have : 0 < Nat.log 2 n := Nat.log_pos (by norm_num) h1
      omega

theorem lg2_eq_log (n : ℕ) : lg2 n = Nat.log 2 n := lg2Go_eq_log n n le_rfl

theorem lg2_pow (L : ℕ) : lg2 (2 ^ L) = L := by
  rw [lg2_eq_log, Nat.log_pow (by norm_num)]

/-! ## `stepBy` and the twiddle table -/

theorem stepByGo_fuel (s : ℕ) :
    ∀ (fuel1 fuel2 : ℕ) (l : List ℕ), l.length ≤ fuel1 → l.length ≤ fuel2 →
      stepByGo s fuel1 l = stepByGo s fuel2 l
  | 0, 0, l, _, _ => rfl
  | 0, fuel2 + 1, [], _, _ => rfl
  | fuel1 + 1, 0, [], _, _ => rfl
  | fuel1 + 1, fuel2 + 1, [], _, _ => rfl
  | fuel1 + 1, fuel2 + 1, x :: xs, h1, h2 => by
    simp only [stepByGo]
    have hd : (xs.drop (s - 1)).length ≤ xs.length := by
      simp [List.length_drop]
    have hx1 : xs.length ≤ fuel1 := by simpa using h1
    have hx2 : xs.length ≤ fuel2 := by simpa using h2
    rw [stepByGo_fuel s fuel1 fuel2 (xs.drop (s - 1)) (le_trans hd hx1)
      (le_trans hd hx2)]

theorem stepBy_nil (s : ℕ) : stepBy s [] = [] := rfl

theorem stepBy_cons (s : ℕ) (x : ℕ) (xs : List ℕ) :
    stepBy s (x :: xs) = x :: stepBy s (xs.drop (s - 1)) := by
  unfold stepBy
  simp only [List.length_cons, stepByGo]
  have hd : (xs.drop (s - 1)).length ≤ xs.length := by simp [List.length_drop]
  rw [stepByGo_fuel s xs.length (xs.drop (s - 1)).length _ hd le_rfl]

theorem map_range_drop {α : Type} :
    ∀ (t : ℕ) (h : ℕ → α) (N : ℕ), t ≤ N →
      ((List.range N).map h).drop t = (List.range (N - t)).map (fun j => h (t + j))
  | 0, h, N, _ => by simp
  | t + 1, h, N, ht => by
    obtain ⟨M, rfl⟩ : ∃ M, N = M + 1 := ⟨N - 1, by omega⟩
    rw [List.range_succ_eq_map, List.map_cons, List.drop_succ_cons, List.map_map,
      map_range_drop t (h ∘ Nat.succ) M (by omega)]
    have harith : M - t = M + 1 - (t + 1) := by omega
    rw [harith]
    refine List.map_congr_left (fun j _ => ?_)
    simp only [Function.comp]
    congr 1
    omega

theorem stepBy_map_range (P g : ℕ) (s : ℕ) (hs : 1 ≤ s) :
    ∀ (m c : ℕ),
      stepBy s ((List.range (m * s)).map (fun j => fpow P g (j + c)))
        = (List.range m).map (fun k => fpow P g (k * s + c))
  | 0, c => by simp [stepBy_nil]
  | m + 1, c => by
    have hmul : (m + 1) * s = m * s + s := by ring
    obtain ⟨N, hN⟩ : ∃ N, (m + 1) * s = N + 1 := ⟨(m + 1) * s - 1, by omega⟩
    have hNs : N - (s - 1) = m * s := by omega
    rw [hN, List.range_succ_eq_map, List.map_cons, stepBy_cons, List.map_map,
      map_range_drop (s - 1) _ N (by omega)]
    have hmid : (List.range (N - (s - 1))).map
        (fun j => ((fun j => fpow P g (j + c)) ∘ Nat.succ) (s - 1 + j))
        = (List.range (m * s)).map (fun j => fpow P g (j + (s + c))) := by
      rw [hNs]
      refine List.map_congr_left (fun j _ => ?_)
      simp only [Function.comp]
      congr 1
      omega
    rw [hmid, stepBy_map_range P g s hs m (s + c), List.range_succ_eq_map,
      List.map_cons, List.map_map]
    congr 1
    · congr 1
      omega
    · refine List.map_congr_left (fun k _ => ?_)
      simp only [Function.comp]
      congr 1
      rw [Nat.succ_mul]
      ring

theorem stepBy_fpowers (P g s m : ℕ) (hs : 1 ≤ s) :
    stepBy s (fpowers P g (m * s)) = (List.range m).map (fun k => fpow P g (k * s)) := by
  have h := stepBy_map_range P g s hs m 0
  simpa [fpowers] using h

theorem fpowers_length (P g n : ℕ) : (fpowers P g n).length = n := by
  simp [fpowers]

theorem fpowers_getD (P g n k : ℕ) (hk : k < n) :
    (fpowers P g n).getD k 0 = fpow P g k := range_map_getD _ _ _ _ hk

theorem fpowers_one (P g : ℕ) : fpowers P g 1 = [1 % P] := by
  simp [fpowers, List.range_succ, fpow]

theorem difTable_eq_map (P : ℕ) :
    ∀ (L g : ℕ), difTable P g L
      = (List.range (L - 1)).map
          (fun i => (List.range (2 ^ (L - 1 - i))).map (fun k => fpow P g (k * 2 ^ i)))
  | 0, g => rfl
  | 1, g => rfl
  | L + 2, g => by
    rw [difTable, difTable_eq_map P (L + 1) (g * g % P)]
    have hL : L + 2 - 1 = (L + 1 - 1) + 1 := by omega
    rw [hL, List.range_succ_eq_map, List.map_cons, List.map_map]
    congr 1
    · unfold fpowers
      have h0 : L + 1 - 1 + 1 - 0 = L + 1 := by omega
      rw [h0]
      refine List.map_congr_left (fun k _ => ?_)
      simp [fpow]
    · refine List.map_congr_left (fun i _ => ?_)
      simp only [Function.comp, Nat.succ_eq_add_one]
      have h1 : L + 1 - 1 + 1 - (i + 1) = L + 1 - 1 - i := by omega
      rw [h1]
      refine List.map_congr_left (fun k _ => ?_)
      rw [fpow_sq]
      congr 1
      rw [pow_succ]
      ring

theorem difTable_length (P : ℕ) (g L : ℕ) : (difTable P g L).length = L - 1 := by
  rw [difTable_eq_map]
  simp

theorem table_eq_difTable (P g L : ℕ) :
    roots_of_unity_table P g (2 ^ L) = difTable P g L := by
  rw [roots_of_unity_table, difTable_eq_map]
  simp only [lg2_pow]
  refine List.map_congr_left (fun i hi => ?_)
  rw [List.mem_range] at hi
  have hsplit : 2 ^ (L - 1) = 2 ^ (L - 1 - i) * 2 ^ i := by
    rw [← pow_add]
    congr 1
    omega
  rw [hsplit, stepBy_fpowers P g (2 ^ i) (2 ^ (L - 1 - i)) Nat.one_le_two_pow]

theorem difRoots_eq (P : ℕ) :
    ∀ (L g : ℕ), 1 ≤ L → difTable P g L ++ [[1 % P]] = difRoots P g L
  | 1, g, _ => by
    simp [difTable, difRoots, fpowers_one]
  | L + 2, g, _ => by
    rw [difTable, difRoots, List.cons_append,
      difRoots_eq P (L + 1) (g * g % P) (by omega)]

/-! ## Blocks and passes -/

theorem passTop_length (P : ℕ) (top tail : List ℕ) :
    (passTop P top tail).length = min top.length tail.length := by
  simp [passTop]

theorem passTailP_length (P : ℕ) (top tail roots : List ℕ) :
    (passTailP P top tail roots).length
      = min top.length (min tail.length roots.length) :=
  map3_length _ top tail roots

theorem map3_bfly2_eq_passTailP (P : ℕ) (top tail roots : List ℕ) :
    map3 (bfly2 P) top tail roots = passTailP P top tail roots :=
  map3_congr _ _ (fun x y z => bfly2_eq_fmul_fsub P x y z) top tail roots

theorem blockPass_eq (P m : ℕ) (roots b : List ℕ) :
    blockPass P m roots b
      = passTop P (b.take m) (b.drop m) ++ passTailP P (b.take m) (b.drop m) roots := by
  rw [blockPass, map3_bfly2_eq_passTailP]
  rfl

theorem blockPass_length (P m : ℕ) (roots b : List ℕ) (hb : 2 * m ≤ b.length)
    (hr : m ≤ roots.length) :
    (blockPass P m roots b).length = 2 * m := by
  rw [blockPass_eq]
  have h1 : (b.take m).length = m := by simp; omega
  have h2 : m ≤ (b.drop m).length := by simp; omega
  rw [List.length_append, passTop_length, passTailP_length, h1]
  omega

theorem blocksGo_fuel (P m : ℕ) (r : List ℕ) (hm : 0 < m) :
    ∀ (fuel1 fuel2 : ℕ) (a : List ℕ), a.length ≤ fuel1 → a.length ≤ fuel2 →
      blocksGo P m r fuel1 a = blocksGo P m r fuel2 a
  | 0, 0, a, _, _ => rfl
  | 0, fuel2 + 1, a, h1, _ => by
    have ha : a = [] := List.eq_nil_of_length_eq_zero (by omega)
    subst ha
    simp [blocksGo]
  | fuel1 + 1, 0, a, _, h2 => by
    have ha : a = [] := List.eq_nil_of_length_eq_zero (by omega)
    subst ha
    simp [blocksGo]
  | fuel1 + 1, fuel2 + 1, [], _, _ => by simp [blocksGo]
  | fuel1 + 1, fuel2 + 1, x :: xs, h1, h2 => by
    simp only [blocksGo, List.isEmpty_cons, Bool.false_eq_true, if_false]
    congr 1
    have hd : ((x :: xs).drop (2 * m)).length ≤ xs.length := by
      simp only [List.length_drop, List.length_cons]
      omega
    have hx1 : xs.length + 1 ≤ fuel1 + 1 := by simpa using h1
    have hx2 : xs.length + 1 ≤ fuel2 + 1 := by simpa using h2
    exact blocksGo_fuel P m r hm fuel1 fuel2 _ (by omega) (by omega)

theorem blocksPass_nil (P m : ℕ) (r : List ℕ) : blocksPass P m r [] = [] := rfl

theorem blocksPass_step (P m : ℕ) (r : List ℕ) (hm : 0 < m) (x : ℕ) (xs : List ℕ) :
    blocksPass P m r (x :: xs)
      = blockPass P m r ((x :: xs).take (2 * m))
        ++ blocksPass P m r ((x :: xs).drop (2 * m)) := by
  unfold blocksPass
  have hlc : (x :: xs).length = xs.length + 1 := rfl
  rw [hlc]
  simp only [blocksGo, List.isEmpty_cons, Bool.false_eq_true, if_false]
  congr 1
  have hd : ((x :: xs).drop (2 * m)).length ≤ xs.length := by
    simp only [List.length_drop, List.length_cons]
    omega
  exact blocksGo_fuel P m r hm xs.length _ _ hd le_rfl

theorem blocksPass_single (P m : ℕ) (r : List ℕ) (hm : 0 < m) (a : List ℕ)
    (ha : a.length = 2 * m) : blocksPass P m r a = blockPass P m r a := by
  cases a with
  | nil => simp at ha; omega
  | cons x xs =>
    rw [blocksPass_step P m r hm, ← ha, List.take_length, List.drop_length,
      blocksPass_nil, List.append_nil]

theorem blocksPass_append (P m : ℕ) (r : List ℕ) (hm : 0 < m) :
    ∀ (q : ℕ) (b c : List ℕ), b.length = 2 * m * q →
      blocksPass P m r (b ++ c) = blocksPass P m r b ++ blocksPass P m r c
  | 0, b, c, hb => by
    have : b = [] := List.eq_nil_of_length_eq_zero (by omega)
    subst this
    simp [blocksPass_nil]
  | q + 1, b, c, hb => by
    have hblen : 2 * m ≤ b.length := by
      rw [hb]
      calc 2 * m = 2 * m * 1 := by ring
        _ ≤ 2 * m * (q + 1) := by
            exact Nat.mul_le_mul_left _ (by omega)
    obtain ⟨x, xs, rfl⟩ : ∃ x xs, b = x :: xs := by
      cases b with
      | nil => simp at hb; omega
      | cons x xs => exact ⟨x, xs, rfl⟩
    have hb2 : (x :: xs).length = 2 * m * q + 2 * m := by rw [hb]; ring
    rw [List.cons_append, blocksPass_step P m r hm, ← List.cons_append,
      List.take_append_of_le_length hblen, List.drop_append_of_le_length hblen,
      blocksPass_append P m r hm q ((x :: xs).drop (2 * m)) c
        (by simp only [List.length_drop]; omega),
      blocksPass_step P m r hm x xs, List.append_assoc]

theorem blocksPass_length (P m : ℕ) (r : List ℕ) (hm : 0 < m) (hr : m ≤ r.length) :
    ∀ (q : ℕ) (a : List ℕ), a.length = 2 * m * q →
      (blocksPass P m r a).length = a.length
  | 0, a, ha => by
    have : a = [] := List.eq_nil_of_length_eq_zero (by omega)
    subst this
    rfl
  | q + 1, a, ha => by
    have halen : 2 * m ≤ a.length := by
      rw [ha]
      calc 2 * m = 2 * m * 1 := by ring
        _ ≤ 2 * m * (q + 1) := Nat.mul_le_mul_left _ (by omega)
    obtain ⟨x, xs, rfl⟩ : ∃ x xs, a = x :: xs := by
      cases a with
      | nil => simp at ha; omega
      | cons x xs => exact ⟨x, xs, rfl⟩
    have ha2 : (x :: xs).length = 2 * m * q + 2 * m := by rw [ha]; ring
    rw [blocksPass_step P m r hm, List.length_append,
      blockPass_length P m r _ (by simpa using halen) hr,
      blocksPass_length P m r hm hr q ((x :: xs).drop (2 * m))
        (by simp only [List.length_drop]; omega)]
    simp only [List.length_drop]
    omega

/-! ## `runStages` versus the recursive reference `difNat` -/

theorem difRoots_length (P : ℕ) : ∀ (L g : ℕ), (difRoots P g L).length = L
  | 0, g => rfl
  | L + 1, g => by
    rw [difRoots, List.length_cons, difRoots_length P L]

theorem runStages_cons (P : ℕ) (r : List ℕ) (rs : List (List ℕ)) (a : List ℕ) :
    runStages P (r :: rs) a = runStages P rs (blocksPass P (2 ^ rs.length) r a) := rfl

theorem runStages_append (P : ℕ) :
    ∀ (L g : ℕ) (b c : List ℕ), 2 ^ L ∣ b.length → 2 ^ L ∣ c.length →
      runStages P (difRoots P g L) (b ++ c)
        = runStages P (difRoots P g L) b ++ runStages P (difRoots P g L) c
  | 0, g, b, c, _, _ => rfl
  | L + 1, g, b, c, hb, hc => by
    obtain ⟨qb, hqb⟩ := hb
    obtain ⟨qc, hqc⟩ := hc
    have hqb2 : b.length = 2 * 2 ^ L * qb := by rw [hqb]; ring
    have hqc2 : c.length = 2 * 2 ^ L * qc := by rw [hqc]; ring
    have hm : 0 < 2 ^ L := Nat.pos_pow_of_pos L (by norm_num)
    have hrlen : (2 : ℕ) ^ L ≤ (fpowers P g (2 ^ L)).length := by
      rw [fpowers_length]
    rw [difRoots, runStages_cons, runStages_cons, runStages_cons, difRoots_length,
      blocksPass_append P (2 ^ L) _ hm qb b c hqb2,
      runStages_append P L (g * g % P) _ _
        ⟨2 * qb, by rw [blocksPass_length P (2 ^ L) _ hm hrlen qb b hqb2, hqb]; ring⟩
        ⟨2 * qc, by rw [blocksPass_length P (2 ^ L) _ hm hrlen qc c hqc2, hqc]; ring⟩]

theorem runStages_length (P : ℕ) :
    ∀ (L g : ℕ) (a : List ℕ), 2 ^ L ∣ a.length →
      (runStages P (difRoots P g L) a).length = a.length
  | 0, g, a, _ => rfl
  | L + 1, g, a, ha => by
    obtain ⟨q, hq⟩ := ha
    have hq2 : a.length = 2 * 2 ^ L * q := by rw [hq]; ring
    have hm : 0 < 2 ^ L := Nat.pos_pow_of_pos L (by norm_num)
    have hrlen : (2 : ℕ) ^ L ≤ (fpowers P g (2 ^ L)).length := by
      rw [fpowers_length]
    rw [difRoots, runStages_cons, difRoots_length,
      runStages_length P L (g * g % P) _
        ⟨2 * q, by rw [blocksPass_length P (2 ^ L) _ hm hrlen q a hq2, hq]; ring⟩,
      blocksPass_length P (2 ^ L) _ hm hrlen q a hq2]

theorem take_drop_lengths (a : List ℕ) (m : ℕ) (h : a.length = 2 * m) :
    (a.take m).length = m ∧ (a.drop m).length = m := by
  constructor <;> simp [h] <;> omega

theorem runStages_difNat (P : ℕ) :
    ∀ (L g : ℕ) (a : List ℕ), a.length = 2 ^ L →
      runStages P (difRoots P g L) a = difNat P g L a
  | 0, g, a, _ => rfl
  | L + 1, g, a, ha => by
    have hm : 0 < 2 ^ L := Nat.pos_pow_of_pos L (by norm_num)
    have ha2 : a.length = 2 * 2 ^ L := by rw [ha]; ring
    obtain ⟨ht, hd⟩ := take_drop_lengths a (2 ^ L) ha2
    have htoplen : (passTop P (a.take (2 ^ L)) (a.drop (2 ^ L))).length = 2 ^ L := by
      rw [passTop_length, ht, hd]; omega
    have htaillen :
        (passTailP P (a.take (2 ^ L)) (a.drop (2 ^ L)) (fpowers P g (2 ^ L))).length
          = 2 ^ L := by
      rw [passTailP_length, ht, hd, fpowers_length]; omega
    rw [difRoots, runStages_cons, difRoots_length,
      blocksPass_single P (2 ^ L) _ hm a ha2, blockPass_eq,
      runStages_append P L (g * g % P) _ _ ⟨1, by rw [htoplen]; ring⟩
        ⟨1, by rw [htaillen]; ring⟩,
      runStages_difNat P L (g * g % P) _ (by rw [htoplen]),
      runStages_difNat P L (g * g % P) _ (by rw [htaillen])]
    rfl

theorem difNat_length (P : ℕ) :
    ∀ (L g : ℕ) (a : List ℕ), a.length = 2 ^ L → (difNat P g L a).length = 2 ^ L
  | 0, g, a, ha => ha
  | L + 1, g, a, ha => by
    have ha2 : a.length = 2 * 2 ^ L := by rw [ha]; ring
    obtain ⟨ht, hd⟩ := take_drop_lengths a (2 ^ L) ha2
    have htoplen : (passTop P (a.take (2 ^ L)) (a.drop (2 ^ L))).length = 2 ^ L := by
      rw [passTop_length, ht, hd]; omega
    have htaillen :
        (passTailP P (a.take (2 ^ L)) (a.drop (2 ^ L)) (fpowers P g (2 ^ L))).length
          = 2 ^ L := by
      rw [passTailP_length, ht, hd, fpowers_length]; omega
    show (difNat P (g * g % P) L _ ++ difNat P (g * g % P) L _).length = 2 ^ (L + 1)
    rw [List.length_append, difNat_length P L (g * g % P) _ htoplen,
      difNat_length P L (g * g % P) _ htaillen]
    ring

theorem passTop_lt (P : ℕ) (hP : 0 < P) :
    ∀ (t u : List ℕ), ∀ x ∈ passTop P t u, x < P
  | [], u => by simp [passTop]
  | t0 :: t, [] => by simp [passTop]
  | t0 :: t, u0 :: u => by
    intro x hx
    rw [show passTop P (t0 :: t) (u0 :: u) = fadd P t0 u0 :: passTop P t u
      from rfl] at hx
    rcases List.mem_cons.mp hx with h | h
    · exact h ▸ fadd_lt P t0 u0 hP
    · exact passTop_lt P hP t u x h

theorem passTailP_lt (P : ℕ) (hP : 0 < P) :
    ∀ (t u r : List ℕ), ∀ x ∈ passTailP P t u r, x < P
  | [], u, r => by
    intro x hx
    rw [passTailP, map3_nil] at hx
    cases hx
  | t0 :: t, [], r => by
    intro x hx
    cases hx
  | t0 :: t, u0 :: u, [] => by
    intro x hx
    cases hx
  | t0 :: t, u0 :: u, r0 :: r => by
    intro x hx
    rw [show passTailP P (t0 :: t) (u0 :: u) (r0 :: r)
      = fmul P (fsub P t0 u0) r0 :: passTailP P t u r from rfl] at hx
    rcases List.mem_cons.mp hx with h | h
    · exact h ▸ fmul_lt P _ _ hP
    · exact passTailP_lt P hP t u r x h

theorem difNat_lt (P : ℕ) (hP : 0 < P) :
    ∀ (L g : ℕ) (a : List ℕ), (∀ x ∈ a, x < P) → ∀ x ∈ difNat P g L a, x < P
  | 0, g, a, hc => hc
  | L + 1, g, a, hc => by
    intro x hx
    show x < P
    rcases List.mem_append.mp hx with h | h
    · exact difNat_lt P hP L (g * g % P) _ (passTop_lt P hP _ _) x h
    · exact difNat_lt P hP L (g * g % P) _ (passTailP_lt P hP _ _ _) x h

/-! ## The stage executor `forward_pass` -/

theorem drop_half_half (a : List ℕ) (h : ℕ) (hlen : a.length = 2 * h) :
    (a.drop h).drop h = [] := by
  rw [List.drop_drop, List.drop_eq_nil_iff]
  omega

theorem cons_of_take (a : List ℕ) (h : ℕ) (hpos : 0 < h) (hlen : 2 * h ≤ a.length) :
    ∃ x top1, a.take h = x :: top1 := by
  have : (a.take h).length = h := by simp; omega
  cases htake : a.take h with
  | nil => rw [htake] at this; simp at this; omega
  | cons x top1 => exact ⟨x, top1, rfl⟩

theorem cons_of_drop (a : List ℕ) (h : ℕ) (hpos : 0 < h) (hlen : a.length = 2 * h) :
    ∃ y tail1, a.drop h = y :: tail1 := by
  have : (a.drop h).length = h := by simp; omega
  cases hdrop : a.drop h with
  | nil => rw [hdrop] at this; simp at this; omega
  | cons y tail1 => exact ⟨y, tail1, rfl⟩

/-- On a well-formed input whose first twiddle is `one()`, both branches of
`forward_pass` compute the element-wise butterfly stage. -/
theorem forward_pass_eq (P W h : ℕ) (a roots : List ℕ) (hP : 1 < P)
    (hlen : a.length = 2 * h) (hpos : 0 < h) (hr : roots.length = h)
    (h0 : roots.getD 0 0 = 1) :
    forward_pass P W a roots
      = .ok (passTop P (a.take h) (a.drop h)
          ++ passTailP P (a.take h) (a.drop h) roots) := by
  have hdiv : a.length / 2 = h := by omega
  unfold forward_pass
  rw [hdiv, if_neg (by omega)]
  by_cases hw : W ≤ h
  · rw [if_pos hw]
    unfold forward_pass_packed
    dsimp only
    rw [hdiv, drop_half_half a h hlen, List.append_nil]
  · rw [if_neg hw]
    unfold forward_pass_scalar
    dsimp only
    rw [hdiv]
    obtain ⟨x, top1, hx⟩ := cons_of_take a h hpos (le_of_eq hlen.symm)
    obtain ⟨y, tail1, hy⟩ := cons_of_drop a h hpos hlen
    obtain ⟨r0, roots1, hr0⟩ : ∃ r0 roots1, roots = r0 :: roots1 := by
      cases hrr : roots with
      | nil => rw [hrr] at hr; simp at hr; omega
      | cons r0 roots1 => exact ⟨r0, roots1, rfl⟩
    have hr0val : r0 = 1 := by rw [hr0] at h0; exact h0
    have hnil : List.drop h (y :: tail1) = [] := by
      rw [← hy]
      exact drop_half_half a h hlen
    rw [hx, hy, hr0]
    dsimp only
    rw [hnil, List.append_nil]
    congr 1
    have hTop : passTop P (x :: top1) (y :: tail1) = fadd P x y :: passTop P top1 tail1 := rfl
    have hTail : passTailP P (x :: top1) (y :: tail1) (r0 :: roots1)
        = fmul P (fsub P x y) r0 :: passTailP P top1 tail1 roots1 := rfl
    rw [hTop, hTail, hr0val, fmul_one_right P _ (fsub_lt P x y (by omega)),
      map3_bfly2_eq_passTailP]

/-- `forward_pass` runs to completion (no assertion failure) on any
even-length buffer with a half-length twiddle list, on either branch. -/
theorem forward_pass_completes (P W h : ℕ) (a roots : List ℕ)
    (hlen : a.length = 2 * h) (hpos : 0 < h) (hr : roots.length = h) :
    ∃ b, forward_pass P W a roots = .ok b ∧ b.length = 2 * h := by
  have hdiv : a.length / 2 = h := by omega
  have ht : (a.take h).length = h := by simp; omega
  have hd : (a.drop h).length = h := by simp; omega
  unfold forward_pass
  rw [hdiv, if_neg (by omega)]
  by_cases hw : W ≤ h
  · rw [if_pos hw]
    unfold forward_pass_packed
    dsimp only
    rw [hdiv, drop_half_half a h hlen, List.append_nil]
    refine ⟨_, rfl, ?_⟩
    rw [List.length_append, passTop_length, passTailP_length, ht, hd, hr]
    omega
  · rw [if_neg hw]
    unfold forward_pass_scalar
    dsimp only
    rw [hdiv]
    obtain ⟨x, top1, hx⟩ := cons_of_take a h hpos (le_of_eq hlen.symm)
    obtain ⟨y, tail1, hy⟩ := cons_of_drop a h hpos hlen
    obtain ⟨r0, roots1, hr0⟩ : ∃ r0 roots1, roots = r0 :: roots1 := by
      cases hrr : roots with
      | nil => rw [hrr] at hr; simp at hr; omega
      | cons r0 roots1 => exact ⟨r0, roots1, rfl⟩
    have hnil : List.drop h (y :: tail1) = [] := by
      rw [← hy]
      exact drop_half_half a h hlen
    rw [hx, hy, hr0]
    dsimp only
    rw [hnil, List.append_nil]
    refine ⟨_, rfl, ?_⟩
    have ht1 : top1.length = h - 1 := by
      have h2 := ht
      rw [hx] at h2
      simp at h2
      omega
    have hd1 : tail1.length = h - 1 := by
      have h2 := hd
      rw [hy] at h2
      simp at h2
      omega
    have hr1 : roots1.length = h - 1 := by
      rw [hr0] at hr
      simp at hr
      omega
    rw [List.length_append, List.length_cons, List.length_cons, passTop_length,
      map3_length, ht1, hd1, hr1]
    omega

/-! ## `forward_small` versus `runStages` -/

theorem stageRoots_length (P lg_n : ℕ) (table : List (List ℕ)) :
    ∀ k, (stageRoots P lg_n table k).length = k
  | 0 => rfl
  | k + 1 => by
    rw [stageRoots, List.length_cons, stageRoots_length P lg_n table k]

theorem pow_mod_pow_eq_zero (w k : ℕ) (h : (2:ℕ) ^ w ≤ 2 ^ k) :
    (2:ℕ) ^ k % 2 ^ w = 0 := by
  have hwk : w ≤ k := (Nat.pow_le_pow_iff_right (by norm_num)).mp h
  exact Nat.mod_eq_zero_of_dvd (pow_dvd_pow 2 hwk)

theorem getq_some (table : List (List ℕ)) (s : ℕ) (hs : s < table.length) :
    table.get? s = some (table.getD s []) := by
  rw [List.get?_eq_getElem?, List.getElem?_eq_getElem hs,
    List.getD_eq_getElem?_getD, List.getElem?_eq_getElem hs]
  rfl

/-- The breadth-first stage loop computes exactly the `runStages` run over
the per-stage root lists, provided each consulted table level has the
asserted length. -/
theorem forward_small_go_eq (P w lg_n : ℕ) (table : List (List ℕ))
    (hshape : ∀ s, s < lg_n - 1 →
      s < table.length ∧ (table.getD s []).length = 2 ^ (lg_n - 1 - s)) :
    ∀ (k : ℕ) (a : List ℕ), k ≤ lg_n → a.length = 2 ^ lg_n →
      forward_small_go P (2 ^ w) lg_n table k a
        = .ok (runStages P (stageRoots P lg_n table k) a)
  | 0, a, _, _ => rfl
  | k + 1, a, hk, ha => by
    have hTk : 0 < (2:ℕ) ^ k := Nat.pos_pow_of_pos k (by norm_num)
    have hsel : (if k ≠ 0 then table.get? (lg_n - k - 1) else some [1 % P])
        = some (if k ≠ 0 then table.getD (lg_n - k - 1) [] else [1 % P]) := by
      by_cases hk0 : k = 0
      · rw [if_neg (by simpa using hk0), if_neg (by simpa using hk0)]
      · rw [if_pos hk0, if_pos hk0,
          getq_some table _ (hshape (lg_n - k - 1) (by omega)).1]
    have hrlen : (if k ≠ 0 then table.getD (lg_n - k - 1) [] else [1 % P]).length
        = 2 ^ k := by
      by_cases hk0 : k = 0
      · rw [if_neg (by simpa using hk0), hk0]
        rfl
      · rw [if_pos hk0]
        have h2 := (hshape (lg_n - k - 1) (by omega)).2
        rw [h2]
        congr 1
        omega
    set rts := (if k ≠ 0 then table.getD (lg_n - k - 1) [] else [1 % P]) with hrts
    have hbranch :
        (if lg_n - k - 1 = 0 ∧ 2 ^ w ≤ a.length / 2 then
            forward_small_s0 P (2 ^ w) a rts
          else if lg_n - k - 1 = 1 ∧ 2 ^ w ≤ a.length / 4 then
            forward_small_s1 P (2 ^ w) a rts
          else .ok (blocksPass P (2 ^ k) rts a))
        = .ok (blocksPass P (2 ^ k) rts a) := by
      by_cases hc0 : lg_n - k - 1 = 0 ∧ 2 ^ w ≤ a.length / 2
      · rw [if_pos hc0]
        obtain ⟨hs0, hw0⟩ := hc0
        have hlg : lg_n = k + 1 := by omega
        have hhalf : a.length / 2 = 2 ^ k := by
          rw [ha, hlg, pow_succ]
          omega
        have ha2 : a.length = 2 * 2 ^ k := by
          rw [ha, hlg, pow_succ]
          ring
        unfold forward_small_s0
        dsimp only
        rw [hhalf, if_neg (by
          rw [pow_mod_pow_eq_zero w k (hhalf ▸ hw0)]
          omega),
          blocksPass_single P (2 ^ k) rts hTk a ha2, blockPass_eq]
      · rw [if_neg hc0]
        by_cases hc1 : lg_n - k - 1 = 1 ∧ 2 ^ w ≤ a.length / 4
        · rw [if_pos hc1]
          obtain ⟨hs1, hw1⟩ := hc1
          have hlg : lg_n = k + 2 := by omega
          have hquart : a.length / 4 = 2 ^ k := by
            rw [ha, hlg, pow_succ, pow_succ]
            omega
          have hhalf : a.length / 2 = 2 * 2 ^ k := by
            rw [ha, hlg, pow_succ, pow_succ]
            omega
          have hc1len : (a.take (2 * 2 ^ k)).length = 2 * 2 ^ k := by
            rw [List.length_take, ha, hlg, pow_succ, pow_succ]
            simp
            omega
          have hc2len : (a.drop (2 * 2 ^ k)).length = 2 * 2 ^ k := by
            rw [List.length_drop, ha, hlg, pow_succ, pow_succ]
            omega
          unfold forward_small_s1
          dsimp only
          rw [hquart, hhalf, if_neg (by
            rw [pow_mod_pow_eq_zero w k (hquart ▸ hw1)]
            omega)]
          conv_rhs => rw [← List.take_append_drop (2 * 2 ^ k) a]
          rw [blocksPass_append P (2 ^ k) rts hTk 1 _ _ (by rw [hc1len]; ring),
            blocksPass_single P (2 ^ k) rts hTk _ hc1len,
            blocksPass_single P (2 ^ k) rts hTk _ hc2len,
            blockPass_eq, blockPass_eq]
          rw [List.append_assoc, List.append_assoc]
        · rw [if_neg hc1]
    have hstep : a.length = 2 * 2 ^ k * 2 ^ (lg_n - k - 1) := by
      rw [ha]
      have : 2 * 2 ^ k * 2 ^ (lg_n - k - 1) = 2 ^ (k + 1 + (lg_n - k - 1)) := by
        rw [pow_add, pow_succ]
        ring
      rw [this]
      congr 1
      omega
    have hblen : (blocksPass P (2 ^ k) rts a).length = 2 ^ lg_n := by
      rw [blocksPass_length P (2 ^ k) rts hTk (le_of_eq hrlen.symm)
        (2 ^ (lg_n - k - 1)) a hstep, ha]
    show forward_small_go P (2 ^ w) lg_n table (k + 1) a = _
    rw [forward_small_go]
    rw [hsel]
    dsimp only
    rw [if_neg (by rw [hrlen]; omega), hbranch]
    dsimp only
    rw [forward_small_go_eq P w lg_n table hshape k _ (by omega) hblen]
    rw [stageRoots, runStages_cons, stageRoots_length, ← hrts]

/-- `forward_small` on a power-of-two-length buffer with a well-shaped
table runs all stages and equals the `runStages` reference run. -/
theorem forward_small_eq (P w L : ℕ) (a : List ℕ) (table : List (List ℕ))
    (hlen : a.length = 2 ^ L)
    (hshape : ∀ s, s < L - 1 →
      s < table.length ∧ (table.getD s []).length = 2 ^ (L - 1 - s)) :
    forward_small P (2 ^ w) a table
      = .ok (runStages P (stageRoots P L table L) a) := by
  unfold forward_small
  rw [hlen, lg2_pow, if_pos rfl]
  exact forward_small_go_eq P w L table hshape L _ le_rfl hlen

/-! ## `forward_small` on the real twiddle table computes `difNat` -/

theorem fpow_sqIter (P : ℕ) :
    ∀ (i g k : ℕ), fpow P (sqIter P g i) k = fpow P g (k * 2 ^ i)
  | 0, g, k => by simp [sqIter]
  | i + 1, g, k => by
    show fpow P (sqIter P (g * g % P) i) k = _
    rw [fpow_sqIter P i (g * g % P) k, fpow_sq]
    congr 1
    rw [pow_succ]
    ring

theorem fpowers_sqIter (P g i M : ℕ) :
    fpowers P (sqIter P g i) M
      = (List.range M).map (fun k => fpow P g (k * 2 ^ i)) := by
  unfold fpowers
  exact List.map_congr_left (fun k _ => fpow_sqIter P i g k)

theorem difTable_getD (P g L s : ℕ) (hs : s < L - 1) :
    (difTable P g L).getD s [] = fpowers P (sqIter P g s) (2 ^ (L - 1 - s)) := by
  rw [difTable_eq_map, fpowers_sqIter]
  exact range_map_getD _ _ _ _ hs

theorem difRoots_getD (P : ℕ) :
    ∀ (L g j : ℕ), j < L →
      (difRoots P g L).getD j [] = fpowers P (sqIter P g j) (2 ^ (L - 1 - j))
  | 0, g, j, h => absurd h (by omega)
  | L + 1, g, 0, _ => by
    rw [difRoots]
    show fpowers P g (2 ^ L) = fpowers P (sqIter P g 0) (2 ^ (L + 1 - 1 - 0))
    rw [show sqIter P g 0 = g from rfl, show L + 1 - 1 - 0 = L by omega]
  | L + 1, g, j + 1, h => by
    rw [difRoots]
    show (difRoots P (g * g % P) L).getD j [] = _
    rw [difRoots_getD P L (g * g % P) j (by omega)]
    rw [show sqIter P g (j + 1) = sqIter P (g * g % P) j from rfl,
      show L + 1 - 1 - (j + 1) = L - 1 - j by omega]

theorem difTable_shape (P g L : ℕ) : ∀ s, s < L - 1 →
    s < (difTable P g L).length
      ∧ ((difTable P g L).getD s []).length = 2 ^ (L - 1 - s) := by
  intro s hs
  constructor
  · rw [difTable_length]
    omega
  · rw [difTable_getD P g L s hs, fpowers_length]

theorem stageRoots_difTable (P g L : ℕ) :
    ∀ k, k ≤ L → stageRoots P L (difTable P g L) k = (difRoots P g L).drop (L - k)
  | 0, _ => by
    rw [stageRoots, eq_comm, List.drop_eq_nil_iff, difRoots_length]
    omega
  | k + 1, hk => by
    rw [stageRoots, stageRoots_difTable P g L k (by omega)]
    have hidx : L - (k + 1) < (difRoots P g L).length := by
      rw [difRoots_length]
      omega
    rw [List.drop_eq_getElem_cons hidx]
    have hk1 : L - (k + 1) + 1 = L - k := by omega
    rw [hk1]
    congr 1
    have hgd : (difRoots P g L)[L - (k + 1)] = (difRoots P g L).getD (L - (k + 1)) [] := by
      rw [List.getD_eq_getElem?_getD, List.getElem?_eq_getElem hidx]
      rfl
    rw [hgd, difRoots_getD P L g (L - (k + 1)) (by omega)]
    by_cases hk0 : k = 0
    · subst hk0
      rw [if_neg (by simp)]
      have hexp : L - 1 - (L - (0 + 1)) = 0 := by omega
      have hidx2 : L - (0 + 1) = L - 1 := by omega
      rw [hidx2]
      have : L - 1 - (L - 1) = 0 := by omega
      rw [this, pow_zero, fpowers_one]
    · rw [if_pos hk0]
      have hs : L - k - 1 < L - 1 := by omega
      rw [difTable_getD P g L (L - k - 1) hs]
      have h1 : L - (k + 1) = L - k - 1 := by omega
      rw [h1]

/-- On the table built for its length, the breadth-first small path
computes the reference DIF recursion. -/
theorem forward_small_difNat (P w L g : ℕ) (a : List ℕ)
    (hlen : a.length = 2 ^ L) :
    forward_small P (2 ^ w) a (difTable P g L) = .ok (difNat P g L a) := by
  rw [forward_small_eq P w L a _ hlen (difTable_shape P g L),
    stageRoots_difTable P g L L le_rfl, Nat.sub_self, List.drop_zero,
    runStages_difNat P L g a hlen]

/-! ## `forward_fft` computes `difNat` on every power-of-two length -/

theorem difTable_cons (P g L : ℕ) (hL : 2 ≤ L) :
    difTable P g L = fpowers P g (2 ^ (L - 1)) :: difTable P (g * g % P) (L - 1) := by
  obtain ⟨M, rfl⟩ : ∃ M, L = M + 2 := ⟨L - 2, by omega⟩
  rw [show M + 2 - 1 = M + 1 by omega]
  rfl

theorem difNat_succ (P g L : ℕ) (a : List ℕ) :
    difNat P g (L + 1) a
      = difNat P (g * g % P) L (passTop P (a.take (2 ^ L)) (a.drop (2 ^ L)))
        ++ difNat P (g * g % P) L
          (passTailP P (a.take (2 ^ L)) (a.drop (2 ^ L)) (fpowers P g (2 ^ L))) := rfl

theorem forward_2_eq (P g : ℕ) (hP : 1 < P) (a : List ℕ) (ha : a.length = 2) :
    forward_2 P a = .ok (difNat P g 1 a) := by
  obtain ⟨x, y, rfl⟩ := List.length_eq_two.mp ha
  have h2 : difNat P g 1 [x, y] = [fadd P x y, fmul P (fsub P x y) (1 % P)] := rfl
  rw [h2, one_mod_eq_one P hP, fmul_one_right P _ (fsub_lt P x y (by omega))]
  rfl

/-- The size dispatch of `forward_fft` (forward.rs lines 356–364) falls
through to the default arm for `n ≥ 2048`. -/
theorem size_dispatch_default {α : Type} (v256 v128 v64 v32 v16 v8 v4 v2
    dflt : α) (n : ℕ) (h : 2048 ≤ n) :
    (if n = 256 then v256 else if n = 128 then v128 else if n = 64 then v64
      else if n = 32 then v32 else if n = 16 then v16 else if n = 8 then v8
      else if n = 4 then v4 else if n = 2 then v2 else dflt) = dflt := by
  split_ifs with h1 h2 h3 h4 h5 h6 h7 h8 <;> first | rfl | omega

/-- The size dispatch selects the `n = 2` arm. -/
theorem size_dispatch_two {α : Type} (v256 v128 v64 v32 v16 v8 v4 v2
    dflt : α) (n : ℕ) (h : n = 2) :
    (if n = 256 then v256 else if n = 128 then v128 else if n = 64 then v64
      else if n = 32 then v32 else if n = 16 then v16 else if n = 8 then v8
      else if n = 4 then v4 else if n = 2 then v2 else dflt) = v2 := by
  subst h
  norm_num

/-- `forward_fft`, called on a buffer of length `2^L` with the `difTable`
twiddle table (equal to `roots_of_unity_table`), follows one of its three
live routes (`forward_2`, breadth-first, deep recursion) and in each case
computes the reference DIF recursion `difNat`. -/
theorem fft_eq_difNat (P w : ℕ) (hP : 1 < P) (r8 r16 : List ℕ) :
    ∀ (L g : ℕ) (a : List ℕ), a.length = 2 ^ L →
      forward_fft P (2 ^ w) r8 r16 a (difTable P g L) = .ok (difNat P g L a) := by
  intro L
  induction L using Nat.strong_induction_on with
  | _ L IH =>
    intro g a ha
    by_cases hL0 : L = 0
    · subst hL0
      rw [forward_fft.eq_def]
      dsimp only
      rw [if_pos (by rw [ha]; norm_num)]
      rfl
    by_cases hL1 : L = 1
    · subst hL1
      rw [forward_fft.eq_def]
      dsimp only
      have hlen2 : a.length = 2 := by rw [ha]; norm_num
      rw [if_neg (by omega), if_neg (by omega),
        if_neg (by
          rw [hlen2, show difTable P g 1 = [] from rfl]
          norm_num)]
      rw [size_dispatch_two _ _ _ _ _ _ _ _ _ a.length hlen2]
      exact forward_2_eq P g hP a hlen2
    by_cases hLmid : L ≤ 10
    · -- breadth-first route: 4 ≤ n ≤ 1024
      have hL2 : 2 ≤ L := by omega
      have hn4 : 4 ≤ a.length := by
        rw [ha]
        calc (4:ℕ) = 2 ^ 2 := by norm_num
          _ ≤ 2 ^ L := Nat.pow_le_pow_right (by norm_num) hL2
      have hn1024 : a.length ≤ 1024 := by
        rw [ha]
        calc (2:ℕ) ^ L ≤ 2 ^ 10 := Nat.pow_le_pow_right (by norm_num) hLmid
          _ = 1024 := by norm_num
      rw [forward_fft.eq_def]
      dsimp only
      rw [if_neg (by omega), if_pos (by omega)]
      exact forward_small_difNat P w L g a ha
    · -- deep recursive route: n ≥ 2048
      have hL11 : 11 ≤ L := by omega
      have hn2048 : 2048 ≤ a.length := by
        rw [ha]
        calc (2048:ℕ) = 2 ^ 11 := by norm_num
          _ ≤ 2 ^ L := Nat.pow_le_pow_right (by norm_num) hL11
      have hpow2 : (2:ℕ) ^ L = 2 * 2 ^ (L - 1) := by
        conv_lhs => rw [show L = (L - 1) + 1 by omega]
        rw [pow_succ]
        ring
      have hlen2 : a.length = 2 * 2 ^ (L - 1) := ha.trans hpow2
      have hhalf : a.length / 2 = 2 ^ (L - 1) := by omega
      have hpos : 0 < (2:ℕ) ^ (L - 1) := Nat.pos_pow_of_pos _ (by norm_num)
      rw [forward_fft.eq_def]
      dsimp only
      rw [if_neg (by omega), if_neg (by omega),
        if_neg (by
          rw [ha, difTable_length, show L - 1 + 1 = L by omega]
          omega),
        size_dispatch_default _ _ _ _ _ _ _ _ _ a.length (by omega),
        difTable_cons P g L (by omega)]
      dsimp only
      have hpass := forward_pass_eq P (2 ^ w) (2 ^ (L - 1)) a
        (fpowers P g (2 ^ (L - 1))) hP hlen2 hpos (fpowers_length _ _ _)
        (by
          rw [fpowers_getD P g _ 0 hpos, fpow_zero, one_mod_eq_one P hP])
      rw [hpass]
      dsimp only
      set top1 := passTop P (a.take (2 ^ (L - 1))) (a.drop (2 ^ (L - 1))) with htop1
      set tail1 := passTailP P (a.take (2 ^ (L - 1))) (a.drop (2 ^ (L - 1)))
        (fpowers P g (2 ^ (L - 1))) with htail1
      have hlt : (a.take (2 ^ (L - 1))).length = 2 ^ (L - 1) := by
        simp
        omega
      have hld : (a.drop (2 ^ (L - 1))).length = 2 ^ (L - 1) := by
        simp
        omega
      have htl : top1.length = 2 ^ (L - 1) := by
        rw [htop1, passTop_length, hlt, hld]
        omega
      have hta : tail1.length = 2 ^ (L - 1) := by
        rw [htail1, passTailP_length, hlt, hld, fpowers_length]
        omega
      rw [hhalf, List.take_left' htl, List.drop_left' htl,
        IH (L - 1) (by omega) (g * g % P) top1 htl,
        IH (L - 1) (by omega) (g * g % P) tail1 hta]
      dsimp only
      have hfin : difNat P g L a
          = difNat P (g * g % P) (L - 1) top1 ++ difNat P (g * g % P) (L - 1) tail1 := by
        conv_lhs => rw [show L = (L - 1) + 1 by omega]
        rw [difNat_succ, ← htop1, ← htail1]
      rw [hfin]

/-! ## Bit reversal -/

theorem bitrev_low : ∀ (L i : ℕ), i < 2 ^ L → bitrev (L + 1) i = 2 * bitrev L i
  | 0, i, h => by
    have : i = 0 := by omega
    subst this
    rfl
  | L + 1, i, h => by
    have h2 : (2:ℕ) ^ (L + 2) = 2 * 2 ^ (L + 1) := by rw [pow_succ]; ring
    have hi2 : i / 2 < 2 ^ (L + 1) := by omega
    rw [bitrev, bitrev_low (L) (i / 2) (by
      have h3 : (2:ℕ) ^ (L + 1) = 2 * 2 ^ L := by rw [pow_succ]; ring
      omega)]
    conv_rhs => rw [bitrev]
    ring

theorem bitrev_high : ∀ (L i : ℕ), i < 2 ^ L →
    bitrev (L + 1) (2 ^ L + i) = 2 * bitrev L i + 1
  | 0, i, h => by
    have : i = 0 := by omega
    subst this
    rfl
  | L + 1, i, h => by
    have h2 : (2:ℕ) ^ (L + 2) = 2 * 2 ^ (L + 1) := by rw [pow_succ]; ring
    have h3 : (2:ℕ) ^ (L + 1) = 2 * 2 ^ L := by rw [pow_succ]; ring
    have hdiv : (2 ^ (L + 1) + i) / 2 = 2 ^ L + i / 2 := by omega
    have hmod : (2 ^ (L + 1) + i) % 2 = i % 2 := by omega
    rw [bitrev, hdiv, hmod, bitrev_high L (i / 2) (by omega)]
    conv_rhs => rw [bitrev]
    ring

/-! ## Generic ring-valued list lemmas -/

theorem zip3_length {R : Type} [CommRing R] (f : R → R → R → R) :
    ∀ xs ys zs : List R,
      (zip3 f xs ys zs).length = min xs.length (min ys.length zs.length)
  | [], ys, zs => by cases ys <;> cases zs <;> simp [zip3]
  | x :: xs, [], zs => by simp [zip3]
  | x :: xs, y :: ys, [] => by simp [zip3]
  | x :: xs, y :: ys, z :: zs => by
    simp [zip3, zip3_length f xs ys zs]
    omega

theorem zip3_getD {R : Type} [CommRing R] (f : R → R → R → R) :
    ∀ (xs ys zs : List R) (k : ℕ),
      k < xs.length → k < ys.length → k < zs.length →
      (zip3 f xs ys zs).getD k 0 = f (xs.getD k 0) (ys.getD k 0) (zs.getD k 0)
  | x :: xs, y :: ys, z :: zs, 0, _, _, _ => rfl
  | x :: xs, y :: ys, z :: zs, k + 1, hx, hy, hz => by
    simpa [zip3] using
      zip3_getD f xs ys zs k (by simpa using hx) (by simpa using hy)
        (by simpa using hz)

theorem zipWith_getD_ring {R : Type} [CommRing R] (f : R → R → R) :
    ∀ (xs ys : List R) (k : ℕ), k < xs.length → k < ys.length →
      (List.zipWith f xs ys).getD k 0 = f (xs.getD k 0) (ys.getD k 0)
  | x :: xs, y :: ys, 0, _, _ => rfl
  | x :: xs, y :: ys, k + 1, hx, hy => by
    simpa using zipWith_getD_ring f xs ys k (by simpa using hx) (by simpa using hy)

theorem difZ_length {R : Type} [CommRing R] :
    ∀ (L : ℕ) (g : R) (a : List R), a.length = 2 ^ L → (difZ g L a).length = 2 ^ L
  | 0, g, a, ha => ha
  | L + 1, g, a, ha => by
    have ha2 : a.length = 2 * 2 ^ L := by rw [ha, pow_succ]; ring
    have ht : (a.take (2 ^ L)).length = 2 ^ L := by simp; omega
    have hd : (a.drop (2 ^ L)).length = 2 ^ L := by simp; omega
    show (difZ (g * g) L _ ++ difZ (g * g) L _).length = 2 ^ (L + 1)
    rw [List.length_append,
      difZ_length L (g * g) _ (by
        rw [List.length_zipWith, ht, hd]
        omega),
      difZ_length L (g * g) _ (by
        rw [zip3_length, ht, hd, List.length_map, List.length_range]
        omega)]
    rw [pow_succ]
    ring

/-! ## The decimation-in-frequency identities and `difZ` correctness -/

theorem dft_even {R : Type} [CommRing R] (g : R) (m t : ℕ) (top tail : List R)
    (htop : top.length = m) (htail : tail.length = m) (hg : g ^ (2 * m) = 1) :
    dft g (top ++ tail) (2 * t)
      = dft (g * g) (List.zipWith (fun x y => x + y) top tail) t := by
  unfold dft
  rw [List.length_append, htop, htail, List.length_zipWith, htop, htail, min_self,
    Finset.sum_range_add]
  have he1 : ∀ j ∈ Finset.range m,
      (top ++ tail).getD j 0 * g ^ (j * (2 * t))
        = top.getD j 0 * (g * g) ^ (j * t) := by
    intro j hj
    rw [Finset.mem_range] at hj
    rw [List.getD_append _ _ _ _ (by omega : j < top.length)]
    congr 1
    rw [← pow_two, ← pow_mul]
    congr 1
    ring
  have he2 : ∀ j ∈ Finset.range m,
      (top ++ tail).getD (m + j) 0 * g ^ ((m + j) * (2 * t))
        = tail.getD j 0 * (g * g) ^ (j * t) := by
    intro j hj
    rw [Finset.mem_range] at hj
    rw [List.getD_append_right _ _ _ _ (by omega : top.length ≤ m + j), htop,
      show m + j - m = j by omega]
    congr 1
    rw [show (m + j) * (2 * t) = 2 * m * t + j * (2 * t) by ring, pow_add,
      pow_mul, hg, one_pow, one_mul, ← pow_two, ← pow_mul]
    congr 1
    ring
  rw [Finset.sum_congr rfl he1, Finset.sum_congr rfl he2, ← Finset.sum_add_distrib]
  refine Finset.sum_congr rfl (fun j hj => ?_)
  rw [Finset.mem_range] at hj
  rw [zipWith_getD_ring _ top tail j (by omega) (by omega)]
  ring

theorem dft_odd {R : Type} [CommRing R] (g : R) (m t : ℕ) (top tail : List R)
    (htop : top.length = m) (htail : tail.length = m) (hm : g ^ m = -1) :
    dft g (top ++ tail) (2 * t + 1)
      = dft (g * g)
          (zip3 (fun x y r => (x - y) * r) top tail ((List.range m).map (g ^ ·))) t := by
  unfold dft
  rw [List.length_append, htop, htail, zip3_length, htop, htail, List.length_map,
    List.length_range, min_self, min_self, Finset.sum_range_add]
  have he1 : ∀ j ∈ Finset.range m,
      (top ++ tail).getD j 0 * g ^ (j * (2 * t + 1))
        = top.getD j 0 * (g ^ j * (g * g) ^ (j * t)) := by
    intro j hj
    rw [Finset.mem_range] at hj
    rw [List.getD_append _ _ _ _ (by omega : j < top.length)]
    congr 1
    rw [← pow_two, ← pow_mul, ← pow_add]
    congr 1
    ring
  have he2 : ∀ j ∈ Finset.range m,
      (top ++ tail).getD (m + j) 0 * g ^ ((m + j) * (2 * t + 1))
        = -(tail.getD j 0 * (g ^ j * (g * g) ^ (j * t))) := by
    intro j hj
    rw [Finset.mem_range] at hj
    rw [List.getD_append_right _ _ _ _ (by omega : top.length ≤ m + j), htop,
      show m + j - m = j by omega]
    rw [show (m + j) * (2 * t + 1) = m * (2 * t + 1) + j * (2 * t + 1) by ring,
      pow_add, pow_mul, hm, Odd.neg_one_pow (odd_two_mul_add_one t)]
    rw [show (j : ℕ) * (2 * t + 1) = j + 2 * (j * t) by ring, pow_add, pow_mul,
      pow_two]
    ring
  rw [Finset.sum_congr rfl he1, Finset.sum_congr rfl he2]
  have hneg : (∑ j in Finset.range m, -(tail.getD j 0 * (g ^ j * (g * g) ^ (j * t))))
      = -∑ j in Finset.range m, tail.getD j 0 * (g ^ j * (g * g) ^ (j * t)) := by
    rw [Finset.sum_neg_distrib]
  rw [hneg, ← sub_eq_add_neg, ← Finset.sum_sub_distrib]
  refine Finset.sum_congr rfl (fun j hj => ?_)
  rw [Finset.mem_range] at hj
  rw [zip3_getD _ top tail _ j (by omega) (by omega)
    (by rw [List.length_map, List.length_range]; omega)]
  rw [range_map_getD (fun k => g ^ k) 0 m j hj]
  ring

/-- The recursive decimation-in-frequency network evaluates the DFT in
bit-reversed index order: entry `i` of `difZ g L a` is the DFT coefficient
at frequency `bitrev L i`. -/
theorem difZ_dft {R : Type} [CommRing R] :
    ∀ (L : ℕ) (g : R) (a : List R), a.length = 2 ^ L →
      (L = 0 ∨ g ^ (2 ^ (L - 1)) = -1) →
      ∀ i, i < 2 ^ L → (difZ g L a).getD i 0 = dft g a (bitrev L i)
  | 0, g, a, ha, _, i, hi => by
    have hi0 : i = 0 := by omega
    subst hi0
    show a.getD 0 0 = dft g a (bitrev 0 0)
    rw [show bitrev 0 0 = 0 from rfl]
    unfold dft
    rw [ha, pow_zero, Finset.sum_range_one]
    norm_num
  | L + 1, g, a, ha, hg, i, hi => by
    have hgL : g ^ (2 ^ L) = -1 := by
      rcases hg with h | h
      · exact absurd h (by omega)
      · simpa using h
    have ha2 : a.length = 2 * 2 ^ L := by rw [ha, pow_succ]; ring
    have ht : (a.take (2 ^ L)).length = 2 ^ L := by simp; omega
    have hd : (a.drop (2 ^ L)).length = 2 ^ L := by simp; omega
    set top1 := List.zipWith (fun x y => x + y) (a.take (2 ^ L)) (a.drop (2 ^ L))
      with htop1
    set tail1 := zip3 (fun x y r => (x - y) * r) (a.take (2 ^ L)) (a.drop (2 ^ L))
      ((List.range (2 ^ L)).map (g ^ ·)) with htail1
    have htl : top1.length = 2 ^ L := by
      rw [htop1, List.length_zipWith, ht, hd]
      omega
    have hta : tail1.length = 2 ^ L := by
      rw [htail1, zip3_length, ht, hd, List.length_map, List.length_range]
      omega
    have hzlen : (difZ (g * g) L top1).length = 2 ^ L := difZ_length L _ _ htl
    have hIHhyp : L = 0 ∨ (g * g) ^ (2 ^ (L - 1)) = -1 := by
      by_cases hL0 : L = 0
      · exact Or.inl hL0
      · right
        have hpows : (g * g) ^ (2 ^ (L - 1)) = g ^ (2 ^ L) := by
          rw [← pow_two, ← pow_mul]
          congr 1
          have h2L : (2:ℕ) ^ L = 2 * 2 ^ (L - 1) := by
            conv_lhs => rw [show L = (L - 1) + 1 by omega]
            rw [pow_succ]
            ring
          omega
        rw [hpows, hgL]
    have hsplit : difZ g (L + 1) a = difZ (g * g) L top1 ++ difZ (g * g) L tail1 := rfl
    rw [hsplit]
    by_cases hcase : i < 2 ^ L
    · rw [List.getD_append _ _ _ _ (by rw [hzlen]; exact hcase),
        difZ_dft L (g * g) top1 htl hIHhyp i hcase]
      have hEv := dft_even g (2 ^ L) (bitrev L i) (a.take (2 ^ L)) (a.drop (2 ^ L))
        ht hd (by
          rw [show 2 * 2 ^ L = 2 ^ L * 2 by ring, pow_mul, hgL]
          norm_num)
      rw [List.take_append_drop, ← htop1] at hEv
      rw [bitrev_low L i hcase, ← hEv]
    · push_neg at hcase
      have hpow2 : (2:ℕ) ^ (L + 1) = 2 * 2 ^ L := by rw [pow_succ]; ring
      have hi2 : i - 2 ^ L < 2 ^ L := by omega
      rw [List.getD_append_right _ _ _ _ (by rw [hzlen]; exact hcase), hzlen,
        difZ_dft L (g * g) tail1 hta hIHhyp (i - 2 ^ L) hi2]
      have hOd := dft_odd g (2 ^ L) (bitrev L (i - 2 ^ L)) (a.take (2 ^ L))
        (a.drop (2 ^ L)) ht hd hgL
      rw [List.take_append_drop, ← htail1] at hOd
      have hbr : bitrev (L + 1) i = 2 * bitrev L (i - 2 ^ L) + 1 := by
        conv_lhs => rw [show i = 2 ^ L + (i - 2 ^ L) by omega]
        exact bitrev_high L (i - 2 ^ L) hi2
      rw [hbr, ← hOd]

/-! ## Casting `difNat` into `ZMod P` -/

theorem castL_take (P : ℕ) (l : List ℕ) (n : ℕ) :
    castL P (l.take n) = (castL P l).take n := by
  unfold castL
  exact List.map_take _ _ _

theorem castL_drop (P : ℕ) (l : List ℕ) (n : ℕ) :
    castL P (l.drop n) = (castL P l).drop n := by
  unfold castL
  exact List.map_drop _ _ _

theorem castL_cons (P : ℕ) (x : ℕ) (l : List ℕ) :
    castL P (x :: l) = ((x : ℕ) : ZMod P) :: castL P l := rfl

theorem castL_passTop (P : ℕ) : ∀ t u : List ℕ,
    castL P (passTop P t u)
      = List.zipWith (fun x y => x + y) (castL P t) (castL P u)
  | [], u => by cases u <;> rfl
  | t0 :: t, [] => rfl
  | t0 :: t, u0 :: u => by
    show castL P (fadd P t0 u0 :: passTop P t u) = _
    rw [castL_cons, castL_passTop P t u, cast_fadd]
    rfl

theorem castL_passTailP (P : ℕ) : ∀ t u r : List ℕ, (∀ y ∈ u, y ≤ P) →
    castL P (passTailP P t u r)
      = zip3 (fun x y rr => (x - y) * rr) (castL P t) (castL P u) (castL P r)
  | [], u, r, _ => by cases u <;> cases r <;> rfl
  | t0 :: t, [], r, _ => by cases r <;> rfl
  | t0 :: t, u0 :: u, [], _ => rfl
  | t0 :: t, u0 :: u, r0 :: r, hu => by
    show castL P (fmul P (fsub P t0 u0) r0 :: passTailP P t u r) = _
    rw [castL_cons, cast_fmul, cast_fsub P t0 u0 (hu u0 (List.mem_cons_self _ _)),
      castL_passTailP P t u r (fun y hy => hu y (List.mem_cons_of_mem _ hy))]
    rfl

theorem castL_fpowers (P g m : ℕ) :
    castL P (fpowers P g m) = (List.range m).map ((g : ZMod P) ^ ·) := by
  unfold castL fpowers
  rw [List.map_map]
  exact List.map_congr_left (fun k _ => cast_fpow P g k)

theorem cast_sq (P g : ℕ) : ((g * g % P : ℕ) : ZMod P) = (g : ZMod P) * g := by
  rw [ZMod.natCast_mod]
  push_cast
  ring

/-- Cast of the canonical-residue DIF recursion into `ZMod P`. -/
theorem castL_difNat (P : ℕ) (hP : 0 < P) :
    ∀ (L g : ℕ) (a : List ℕ), (∀ x ∈ a, x < P) →
      castL P (difNat P g L a) = difZ ((g : ZMod P)) L (castL P a)
  | 0, _, _, _ => rfl
  | L + 1, g, a, hc => by
    have hdz : difZ ((g : ZMod P)) (L + 1) (castL P a)
        = difZ ((g : ZMod P) * g) L
            (List.zipWith (fun x y => x + y) ((castL P a).take (2 ^ L))
              ((castL P a).drop (2 ^ L)))
          ++ difZ ((g : ZMod P) * g) L
            (zip3 (fun x y r => (x - y) * r) ((castL P a).take (2 ^ L))
              ((castL P a).drop (2 ^ L))
              ((List.range (2 ^ L)).map ((g : ZMod P) ^ ·))) := rfl
    rw [difNat_succ, castL_append, hdz]
    congr 1
    · rw [castL_difNat P hP L (g * g % P) _ (passTop_lt P hP _ _),
        castL_passTop, castL_take, castL_drop, cast_sq]
    · rw [castL_difNat P hP L (g * g % P) _ (passTailP_lt P hP _ _ _),
        castL_passTailP P _ _ _
          (fun y hy => le_of_lt (hc y (List.mem_of_mem_drop hy))),
        castL_take, castL_drop, castL_fpowers, cast_sq]

/-- In `ZMod P` with `P` prime, an element of order `2^L` (with `L ≥ 1`)
raised to the `2^(L-1)` is `-1`. -/
theorem pow_half_order_eq_neg_one (P L g : ℕ) (hP : Nat.Prime P)
    (horder : orderOf ((g : ℕ) : ZMod P) = 2 ^ L) (hL : 1 ≤ L) :
    ((g : ℕ) : ZMod P) ^ (2 ^ (L - 1)) = -1 := by
  haveI : Fact (Nat.Prime P) := ⟨hP⟩
  have hsq : ((g : ℕ) : ZMod P) ^ (2 ^ (L - 1)) * ((g : ℕ) : ZMod P) ^ (2 ^ (L - 1)) = 1 := by
    rw [← pow_add]
    have hadd : 2 ^ (L - 1) + 2 ^ (L - 1) = 2 ^ L := by
      have : (2:ℕ) ^ L = 2 * 2 ^ (L - 1) := by
        conv_lhs => rw [show L = (L - 1) + 1 by omega]
        rw [pow_succ]
        ring
      omega
    rw [hadd, ← horder, pow_orderOf_eq_one]
  have hne : ((g : ℕ) : ZMod P) ^ (2 ^ (L - 1)) ≠ 1 := by
    intro h1
    have hdvd : orderOf ((g : ℕ) : ZMod P) ∣ 2 ^ (L - 1) :=
      orderOf_dvd_of_pow_eq_one h1
    rw [horder] at hdvd
    have hle := Nat.le_of_dvd (Nat.pos_pow_of_pos _ (by norm_num)) hdvd
    have hlt : (2:ℕ) ^ (L - 1) < 2 ^ L :=
      Nat.pow_lt_pow_right (by norm_num) (by omega)
    omega
  rcases mul_self_eq_one_iff.mp hsq with h | h
  · exact absurd h hne
  · exact h

/-! ## Auxiliary list-shape lemma -/

theorem length_eq_four {α : Type} {l : List α} (h : l.length = 4) :
    ∃ a b c d, l = [a, b, c, d] := by
  rcases l with _ | ⟨x0, _ | ⟨x1, _ | ⟨x2, _ | ⟨x3, _ | ⟨x4, t⟩⟩⟩⟩⟩
  · simp at h
  · simp at h
  · simp at h
  · simp at h
  · exact ⟨x0, x1, x2, x3, rfl⟩
  · simp at h

theorem getD_take (a : List ℕ) (n k : ℕ) (hk : k < n) :
    (a.take n).getD k 0 = a.getD k 0 := by
  rw [List.getD_eq_getElem?_getD, List.getD_eq_getElem?_getD,
    List.getElem?_take, if_pos hk]

theorem getD_drop (a : List ℕ) (n k : ℕ) :
    (a.drop n).getD k 0 = a.getD (n + k) 0 := by
  rw [List.getD_eq_getElem?_getD, List.getD_eq_getElem?_getD,
    List.getElem?_drop]

/-- The packed branch on an even-length buffer: the trailing
`tail.drop h` is empty, leaving exactly the two butterfly halves. -/
theorem forward_pass_packed_eq (P h : ℕ) (a roots : List ℕ)
    (hlen : a.length = 2 * h) :
    forward_pass_packed P a roots
      = .ok (passTop P (a.take h) (a.drop h)
          ++ passTailP P (a.take h) (a.drop h) roots) := by
  have hdiv : a.length / 2 = h := by omega
  unfold forward_pass_packed
  dsimp only
  rw [hdiv, drop_half_half a h hlen, List.append_nil]

/-- The scalar branch, given that the first twiddle is `one()`, produces
the same two butterfly halves as the packed branch. -/
theorem forward_pass_scalar_eq (P h : ℕ) (a roots : List ℕ) (hP : 1 < P)
    (hlen : a.length = 2 * h) (hpos : 0 < h) (hr : roots.length = h)
    (h0 : roots.getD 0 0 = 1) :
    forward_pass_scalar P a roots
      = .ok (passTop P (a.take h) (a.drop h)
          ++ passTailP P (a.take h) (a.drop h) roots) := by
  have hdiv : a.length / 2 = h := by omega
  unfold forward_pass_scalar
  dsimp only
  rw [hdiv]
  obtain ⟨x, top1, hx⟩ := cons_of_take a h hpos (le_of_eq hlen.symm)
  obtain ⟨y, tail1, hy⟩ := cons_of_drop a h hpos hlen
  obtain ⟨r0, roots1, hr0⟩ : ∃ r0 roots1, roots = r0 :: roots1 := by
    cases hrr : roots with
    | nil => rw [hrr] at hr; simp at hr; omega
    | cons r0 roots1 => exact ⟨r0, roots1, rfl⟩
  have hr0val : r0 = 1 := by rw [hr0] at h0; exact h0
  have hnil : List.drop h (y :: tail1) = [] := by
    rw [← hy]
    exact drop_half_half a h hlen
  rw [hx, hy, hr0]
  dsimp only
  rw [hnil, List.append_nil]
  congr 1
  have hTop : passTop P (x :: top1) (y :: tail1)
      = fadd P x y :: passTop P top1 tail1 := rfl
  have hTail : passTailP P (x :: top1) (y :: tail1) (r0 :: roots1)
      = fmul P (fsub P x y) r0 :: passTailP P top1 tail1 roots1 := rfl
  rw [hTop, hTail, hr0val, fmul_one_right P _ (fsub_lt P x y (by omega)),
    map3_bfly2_eq_passTailP]

/-- `runStages` over the per-stage root lists preserves the buffer length
whenever every consulted table level has the asserted length. -/
theorem runStages_stageRoots_length (P L : ℕ) (table : List (List ℕ))
    (hshape : ∀ s, s < L - 1 → (table.getD s []).length = 2 ^ (L - 1 - s)) :
    ∀ (k : ℕ) (a : List ℕ), k ≤ L → a.length = 2 ^ L →
      (runStages P (stageRoots P L table k) a).length = 2 ^ L
  | 0, a, _, ha => ha
  | k + 1, a, hk, ha => by
    have hTk : 0 < (2:ℕ) ^ k := Nat.pos_pow_of_pos k (by norm_num)
    have hrlen : (if k ≠ 0 then table.getD (L - k - 1) [] else [1 % P]).length
        = 2 ^ k := by
      by_cases hk0 : k = 0
      · rw [if_neg (by simpa using hk0), hk0]
        rfl
      · rw [if_pos hk0, hshape (L - k - 1) (by omega)]
        congr 1
        omega
    have hstep : a.length = 2 * 2 ^ k * 2 ^ (L - k - 1) := by
      rw [ha]
      have h2 : 2 * 2 ^ k * 2 ^ (L - k - 1) = 2 ^ (k + 1 + (L - k - 1)) := by
        rw [pow_add, pow_succ]
        ring
      rw [h2]
      congr 1
      omega
    rw [stageRoots, runStages_cons, stageRoots_length]
    exact runStages_stageRoots_length P L table hshape k _ (by omega)
      (by rw [blocksPass_length P (2 ^ k) _ hTk (le_of_eq hrlen.symm)
          (2 ^ (L - k - 1)) a hstep, ha])

/-! ## Claim theorems -/

/-- C3: `forward_butterfly(x, y, w)` is a pure total function computing
`(x + y mod P, (x - y) * w mod P)`; on canonical inputs both components
are canonical; `forward_butterfly(x, x, w) = (2x mod P, 0)` and
`forward_butterfly(x, 0, w) = (x, x * w mod P)`. -/
theorem c3_forward_butterfly_spec (P x y w : ℕ) (hP : 0 < P) (hx : x < P)
    (hy : y < P) (hw : w < P) :
    (forward_butterfly P x y w).1 = (x + y) % P
    ∧ (((forward_butterfly P x y w).1 : ℕ) : ZMod P) = (x : ZMod P) + y
    ∧ (((forward_butterfly P x y w).2 : ℕ) : ZMod P) = ((x : ZMod P) - y) * w
    ∧ (forward_butterfly P x y w).1 < P
    ∧ (forward_butterfly P x y w).2 < P
    ∧ forward_butterfly P x x w = (2 * x % P, 0)
    ∧ forward_butterfly P x 0 w = (x, x * w % P) := by
  refine ⟨rfl, cast_fadd P x y, cast_bfly2 P x y w (le_of_lt hy),
    fadd_lt P x y hP, Nat.mod_lt _ hP, ?_, ?_⟩
  · show (fadd P x x, bfly2 P x x w) = (2 * x % P, 0)
    congr 1
    · show (x + x) % P = 2 * x % P
      congr 1
      ring
    · show (P + x - x) * w % P = 0
      rw [show P + x - x = P by omega]
      exact Nat.mul_mod_right P w
  · show (fadd P x 0, bfly2 P x 0 w) = (x, x * w % P)
    congr 1
    · show (x + 0) % P = x
      rw [Nat.add_zero, Nat.mod_eq_of_lt hx]
    · show (P + x - 0) * w % P = x * w % P
      rw [Nat.sub_zero, add_mul]
      conv_lhs => rw [show P * w + x * w = x * w + w * P by ring]
      exact Nat.add_mul_mod_self_right _ w P

/-- Witness for C3 at `P = 17`, `x = 5`, `y = 9`, `w = 3`. -/
theorem c3_forward_butterfly_spec_witness :
    (forward_butterfly 17 5 9 3).1 = (5 + 9) % 17
    ∧ (((forward_butterfly 17 5 9 3).1 : ℕ) : ZMod 17) = (5 : ZMod 17) + 9
    ∧ (((forward_butterfly 17 5 9 3).2 : ℕ) : ZMod 17) = ((5 : ZMod 17) - 9) * 3
    ∧ (forward_butterfly 17 5 9 3).1 < 17
    ∧ (forward_butterfly 17 5 9 3).2 < 17
    ∧ forward_butterfly 17 5 5 3 = (2 * 5 % 17, 0)
    ∧ forward_butterfly 17 5 0 3 = (5, 5 * 3 % 17) :=
  c3_forward_butterfly_spec 17 5 9 3 (by norm_num) (by norm_num) (by norm_num)
    (by norm_num)

/-- C9: `forward_4` computes `t1 = a1 - a3`, `t3 = t1 * w`, `t5 = a1 + a3`,
`t4 = a0 + a2`, `t2 = a0 - a2` and writes `[t4+t5, t4-t5, t2+t3, t2-t3]`
(bit-reversed order); over `P = 5` with `w = 2` it maps `[1,2,3,4]` to
`[0,3,4,2]`. -/
theorem c9_forward_4_algebra (P w4 a0 a1 a2 a3 : ℕ) (hP : 0 < P) (h0 : a0 < P)
    (h1 : a1 < P) (h2 : a2 < P) (h3 : a3 < P) (hw : w4 < P) :
    ∃ out, forward_4 P w4 [a0, a1, a2, a3] = .ok out
      ∧ (∀ x ∈ out, x < P)
      ∧ castL P out
          = [((a0 : ZMod P) + a2) + ((a1 : ZMod P) + a3),
             ((a0 : ZMod P) + a2) - ((a1 : ZMod P) + a3),
             ((a0 : ZMod P) - a2) + ((a1 : ZMod P) - a3) * w4,
             ((a0 : ZMod P) - a2) - ((a1 : ZMod P) - a3) * w4]
      ∧ forward_4 5 2 [1, 2, 3, 4] = .ok [0, 3, 4, 2] := by
  refine ⟨[fadd P (fadd P a0 a2) (fadd P a1 a3),
    fsub P (fadd P a0 a2) (fadd P a1 a3),
    fadd P (fsub P a0 a2) (bfly2 P a1 a3 w4),
    fsub P (fsub P a0 a2) (bfly2 P a1 a3 w4)], rfl, ?_, ?_, rfl⟩
  · intro x hx
    simp only [List.mem_cons, List.not_mem_nil, or_false] at hx
    rcases hx with rfl | rfl | rfl | rfl
    · exact fadd_lt P _ _ hP
    · exact fsub_lt P _ _ hP
    · exact fadd_lt P _ _ hP
    · exact fsub_lt P _ _ hP
  · have hc1 : ((fadd P (fadd P a0 a2) (fadd P a1 a3) : ℕ) : ZMod P)
        = ((a0 : ZMod P) + a2) + ((a1 : ZMod P) + a3) := by
      rw [cast_fadd, cast_fadd, cast_fadd]
    have hc2 : ((fsub P (fadd P a0 a2) (fadd P a1 a3) : ℕ) : ZMod P)
        = ((a0 : ZMod P) + a2) - ((a1 : ZMod P) + a3) := by
      rw [cast_fsub P _ _ (le_of_lt (fadd_lt P a1 a3 hP)), cast_fadd, cast_fadd]
    have hc3 : ((fadd P (fsub P a0 a2) (bfly2 P a1 a3 w4) : ℕ) : ZMod P)
        = ((a0 : ZMod P) - a2) + ((a1 : ZMod P) - a3) * w4 := by
      rw [cast_fadd, cast_fsub P a0 a2 (le_of_lt h2),
        cast_bfly2 P a1 a3 w4 (le_of_lt h3)]
    have hc4 : ((fsub P (fsub P a0 a2) (bfly2 P a1 a3 w4) : ℕ) : ZMod P)
        = ((a0 : ZMod P) - a2) - ((a1 : ZMod P) - a3) * w4 := by
      rw [cast_fsub P (fsub P a0 a2) (bfly2 P a1 a3 w4)
          (le_of_lt (show bfly2 P a1 a3 w4 < P from Nat.mod_lt _ hP)),
        cast_fsub P a0 a2 (le_of_lt h2), cast_bfly2 P a1 a3 w4 (le_of_lt h3)]
    show [_, _, _, _] = [_, _, _, _]
    rw [hc1, hc2, hc3, hc4]

/-- Witness for C9 at `P = 17`, `w = 4`, buffer `[1, 2, 3, 4]`. -/
theorem c9_forward_4_algebra_witness :
    ∃ out, forward_4 17 4 [1, 2, 3, 4] = .ok out
      ∧ (∀ x ∈ out, x < 17)
      ∧ castL 17 out
          = [((1 : ZMod 17) + 3) + ((2 : ZMod 17) + 4),
             ((1 : ZMod 17) + 3) - ((2 : ZMod 17) + 4),
             ((1 : ZMod 17) - 3) + ((2 : ZMod 17) - 4) * 4,
             ((1 : ZMod 17) - 3) - ((2 : ZMod 17) - 4) * 4]
      ∧ forward_4 5 2 [1, 2, 3, 4] = .ok [0, 3, 4, 2] :=
  c9_forward_4_algebra 17 4 1 2 3 4 (by norm_num) (by norm_num) (by norm_num)
    (by norm_num) (by norm_num) (by norm_num)

/-- C10: `Poseidon::new` panics exactly when the number of constants
differs from `WIDTH * (2 * half_num_full_rounds + num_partial_rounds)`,
and otherwise stores its arguments unchanged. -/
theorem c10_poseidon_new (F M : Type) (WIDTH h p : ℕ) (constants : List F)
    (mds : M) :
    (Poseidon.new F M WIDTH h p constants mds = none
      ↔ constants.length ≠ WIDTH * (2 * h + p))
    ∧ ∀ c, Poseidon.new F M WIDTH h p constants mds = some c →
        c.half_num_full_rounds = h ∧ c.num_partial_rounds = p
          ∧ c.constants = constants ∧ c.mds = mds := by
  unfold Poseidon.new
  by_cases hc : constants.length = WIDTH * (2 * h + p)
  · rw [if_pos hc]
    exact ⟨by simp [hc], fun c hsome => by
      cases hsome
      exact ⟨rfl, rfl, rfl, rfl⟩⟩
  · rw [if_neg hc]
    exact ⟨by simp [hc], fun c hsome => by cases hsome⟩

/-- Witness for C10 with `WIDTH = 2`, 1 half-full round, 3 partial rounds,
10 constants. -/
theorem c10_poseidon_new_witness :
    (Poseidon.new ℕ Unit 2 1 3 (List.replicate 10 (0 : ℕ)) () = none
      ↔ (List.replicate 10 (0 : ℕ)).length ≠ 2 * (2 * 1 + 3))
    ∧ ((Poseidon.mk 1 3 (List.replicate 10 (0 : ℕ)) () : Poseidon ℕ Unit).half_num_full_rounds = 1
      ∧ (Poseidon.mk 1 3 (List.replicate 10 (0 : ℕ)) () : Poseidon ℕ Unit).num_partial_rounds = 3
      ∧ (Poseidon.mk 1 3 (List.replicate 10 (0 : ℕ)) () : Poseidon ℕ Unit).constants
          = List.replicate 10 (0 : ℕ)
      ∧ (Poseidon.mk 1 3 (List.replicate 10 (0 : ℕ)) () : Poseidon ℕ Unit).mds = ()) :=
  ⟨(c10_poseidon_new ℕ Unit 2 1 3 (List.replicate 10 0) ()).1,
    (c10_poseidon_new ℕ Unit 2 1 3 (List.replicate 10 0) ()).2
      (Poseidon.mk 1 3 (List.replicate 10 0) ()) rfl⟩

/-- C2: on a buffer of even length `2h` (`h > 0`) with `h` twiddles whose
first entry is `1`, `forward_pass` performs the element-wise butterfly
`top[k], tail[k] = forward_butterfly(top[k], tail[k], roots[k])` on the
two halves, and the packed and the scalar code paths produce bit-identical
results on such an input. -/
theorem c2_forward_pass_butterfly (P W h : ℕ) (a roots : List ℕ)
    (hP : 1 < P) (hlen : a.length = 2 * h) (hpos : 0 < h)
    (hr : roots.length = h) (h0 : roots.getD 0 0 = 1) :
    (∃ out, forward_pass P W a roots = .ok out
      ∧ out.length = 2 * h
      ∧ ∀ k, k < h →
          out.getD k 0
            = (forward_butterfly P (a.getD k 0) (a.getD (h + k) 0)
                (roots.getD k 0)).1
          ∧ out.getD (h + k) 0
            = (forward_butterfly P (a.getD k 0) (a.getD (h + k) 0)
                (roots.getD k 0)).2)
    ∧ forward_pass_packed P a roots = forward_pass_scalar P a roots := by
  have ht : (a.take h).length = h := by simp; omega
  have hd : (a.drop h).length = h := by simp; omega
  have hTopLen : (passTop P (a.take h) (a.drop h)).length = h := by
    rw [passTop_length, ht, hd]; omega
  have hTailLen : (passTailP P (a.take h) (a.drop h) roots).length = h := by
    rw [passTailP_length, ht, hd, hr]; omega
  constructor
  · refine ⟨_, forward_pass_eq P W h a roots hP hlen hpos hr h0, ?_, ?_⟩
    · rw [List.length_append, hTopLen, hTailLen]; omega
    · intro k hk
      constructor
      · rw [List.getD_append _ _ _ _ (by omega)]
        show (passTop P (a.take h) (a.drop h)).getD k 0 = _
        rw [passTop]
        rw [zipWith_getD (fadd P) _ _ k (by omega) (by omega),
          getD_take a h k hk, getD_drop a h k]
        rfl
      · rw [List.getD_append_right _ _ 0 (h + k) (by omega)]
        rw [hTopLen, show h + k - h = k from by omega]
        show (passTailP P (a.take h) (a.drop h) roots).getD k 0 = _
        rw [passTailP]
        rw [map3_getD _ _ _ _ k (by omega) (by omega) (by omega),
          getD_take a h k hk, getD_drop a h k]
        exact (bfly2_eq_fmul_fsub P _ _ _).symm
  · rw [forward_pass_packed_eq P h a roots hlen,
      forward_pass_scalar_eq P h a roots hP hlen hpos hr h0]

/-- Witness for C2 at `P = 17`, `W = 4`, buffer `[1, 2, 3, 4]`, twiddles
`[1, 5]`. -/
theorem c2_forward_pass_butterfly_witness :
    (∃ out, forward_pass 17 4 [1, 2, 3, 4] [1, 5] = .ok out
      ∧ out.length = 2 * 2
      ∧ ∀ k, k < 2 →
          out.getD k 0
            = (forward_butterfly 17 ([1, 2, 3, 4].getD k 0)
                ([1, 2, 3, 4].getD (2 + k) 0) ([1, 5].getD k 0)).1
          ∧ out.getD (2 + k) 0
            = (forward_butterfly 17 ([1, 2, 3, 4].getD k 0)
                ([1, 2, 3, 4].getD (2 + k) 0) ([1, 5].getD k 0)).2)
    ∧ forward_pass_packed 17 [1, 2, 3, 4] [1, 5]
        = forward_pass_scalar 17 [1, 2, 3, 4] [1, 5] :=
  c2_forward_pass_butterfly 17 4 2 [1, 2, 3, 4] [1, 5] (by norm_num) rfl
    (by norm_num) rfl rfl

/-- C6 is false as stated: on the breadth-first path a per-stage
twiddle-length assertion can fire after an earlier stage has already
mutated the buffer.  With `n = 8`, level 0 of length 4 passes and stage 0
runs; level 1 then has length 3 instead of 2 and the stage-1 assert
aborts, leaving the buffer mutated. -/
theorem c6_counterexample :
    forward_fft 17 1 [] [] [1, 2, 3, 4, 5, 6, 7, 8] [[1, 1, 1, 1], [1, 1, 1]]
      = .error [6, 8, 10, 12, 13, 13, 13, 13]
    ∧ ([6, 8, 10, 12, 13, 13, 13, 13] : List ℕ) ≠ [1, 2, 3, 4, 5, 6, 7, 8] :=
  ⟨rfl, by decide⟩

/-- C6 (amended): the entry check of the breadth-first path — the
power-of-two assertion of `log2_strict_usize` inside `forward_small`,
failing exactly when `n ≠ 2 ^ lg2 n`, i.e. when `n` is not a power of
two — aborts before any element of the buffer has been modified,
returning the buffer unchanged. -/
theorem c6_power_check_aborts_unmutated (P W : ℕ) (r8 r16 a : List ℕ)
    (table : List (List ℕ)) (h2 : 2 < a.length) (h1024 : a.length ≤ 1024)
    (hnp : a.length ≠ 2 ^ lg2 a.length) :
    forward_fft P W r8 r16 a table = .error a := by
  rw [forward_fft.eq_def]
  dsimp only
  rw [if_neg (by omega), if_pos ⟨h2, h1024⟩]
  unfold forward_small
  rw [if_neg hnp]

/-- Witness for the amended C6: `n = 3` is not a power of two and the
call returns the untouched buffer. -/
theorem c6_power_check_aborts_unmutated_witness :
    forward_fft 17 1 [] [] [1, 2, 3] [] = .error [1, 2, 3] :=
  c6_power_check_aborts_unmutated 17 1 [] [] [1, 2, 3] [] (by decide)
    (by decide) (by decide)

/-- C7 is false as stated: with `n = 4` (a size routed to the
breadth-first path) and a 3-level table, `n ≠ 2 ^ (len(table) + 1)`
(`4 ≠ 16`), yet the call completes normally — `forward_small` checks only
the per-level lengths of the levels it uses, never the table's total
length. -/
theorem c7_counterexample :
    ([1, 2, 3, 4] : List ℕ).length
        ≠ 2 ^ (([[1, 4], [9], [7]] : List (List ℕ)).length + 1)
    ∧ forward_fft 17 1 [] [] [1, 2, 3, 4] [[1, 4], [9], [7]]
      = .ok [10, 15, 7, 6] :=
  ⟨by decide, rfl⟩

/-- C7 (amended): the precondition `n = 2 ^ (len(table) + 1)` is fatally
enforced only on the dispatcher path, i.e. when `n = 2` or `n > 1024`:
there, any table whose level count violates it makes the call abort. -/
theorem c7_dispatch_length_enforced (P W : ℕ) (r8 r16 a : List ℕ)
    (table : List (List ℕ)) (hn : a.length = 2 ∨ 1024 < a.length)
    (hne : a.length ≠ 2 ^ (table.length + 1)) :
    forward_fft P W r8 r16 a table = .error a := by
  rw [forward_fft.eq_def]
  dsimp only
  rw [if_neg (by omega), if_neg (by omega), if_pos hne]

/-- Witness for the amended C7: `n = 2` with a 1-level table aborts. -/
theorem c7_dispatch_length_enforced_witness :
    forward_fft 17 1 [] [] [1, 2] [[1]] = .error [1, 2] :=
  c7_dispatch_length_enforced 17 1 [] [] [1, 2] [[1]] (Or.inl rfl) (by decide)

/-- C8 is false as stated: for `n = 2` (`L = 1`) the table `[[1]]` has at
least `L - 1 = 0` levels and the per-level condition is vacuous, yet the
call aborts — on the dispatcher path the level count must be exactly
`L - 1`, not at least. -/
theorem c8_counterexample :
    ([5, 9] : List ℕ).length = 2 ^ 1
    ∧ (1 : ℕ) - 1 ≤ ([[1]] : List (List ℕ)).length
    ∧ (∀ i, i < 1 - 1 →
        (([[1]] : List (List ℕ)).getD i []).length = 2 ^ 1 / 2 ^ (i + 1))
    ∧ forward_fft 17 1 [] [] [5, 9] [[1]] = .error [5, 9] :=
  ⟨rfl, by norm_num, fun i hi => absurd hi (by omega), rfl⟩

/-- C8 (amended): with `n = 2 ^ L > 1`, a table whose level `i`
(`i = 0 .. L - 2`) has exactly `n / 2 ^ (i + 1)` entries lets
`forward_fft` run to completion provided the level count is exactly
`L - 1` — or merely at least `L - 1` on the breadth-first path
(`2 ≤ L ≤ 10`), which ignores all further levels. -/
theorem c8_table_levels_complete (P w : ℕ) (r8 r16 : List ℕ) :
    ∀ (L : ℕ) (a : List ℕ) (table : List (List ℕ)), 1 ≤ L →
      a.length = 2 ^ L →
      (∀ i, i < L - 1 → (table.getD i []).length = 2 ^ L / 2 ^ (i + 1)) →
      (table.length = L - 1 ∨ (2 ≤ L ∧ L ≤ 10 ∧ L - 1 ≤ table.length)) →
      ∃ out, forward_fft P (2 ^ w) r8 r16 a table = .ok out
        ∧ out.length = 2 ^ L := by
  intro L
  induction L using Nat.strong_induction_on with
  | _ L IH =>
    intro a table hL ha htab htlen
    have htab2 : ∀ i, i < L - 1 → (table.getD i []).length = 2 ^ (L - 1 - i) := by
      intro i hi
      rw [htab i hi, Nat.pow_div (by omega) (by norm_num)]
      congr 1
      omega
    by_cases hL1 : L = 1
    · subst hL1
      have htl0 : table.length = 0 := by
        rcases htlen with h | h
        · exact h
        · omega
      have hlen2 : a.length = 2 := by rw [ha]; norm_num
      rw [forward_fft.eq_def]
      dsimp only
      rw [if_neg (by omega), if_neg (by omega),
        if_neg (by rw [hlen2, htl0]; norm_num),
        size_dispatch_two _ _ _ _ _ _ _ _ _ a.length hlen2]
      unfold forward_2
      rw [if_neg (by omega)]
      exact ⟨_, rfl, by norm_num⟩
    by_cases hLmid : L ≤ 10
    · have hL2 : 2 ≤ L := by omega
      have hn4 : 4 ≤ a.length := by
        rw [ha]
        calc (4:ℕ) = 2 ^ 2 := by norm_num
          _ ≤ 2 ^ L := Nat.pow_le_pow_right (by norm_num) hL2
      have hn1024 : a.length ≤ 1024 := by
        rw [ha]
        calc (2:ℕ) ^ L ≤ 2 ^ 10 := Nat.pow_le_pow_right (by norm_num) hLmid
          _ = 1024 := by norm_num
      rw [forward_fft.eq_def]
      dsimp only
      rw [if_neg (by omega), if_pos (by omega)]
      have hshape2 : ∀ s, s < L - 1 →
          s < table.length ∧ (table.getD s []).length = 2 ^ (L - 1 - s) := by
        intro s hs
        refine ⟨?_, htab2 s hs⟩
        rcases htlen with h | h
        · omega
        · omega
      rw [forward_small_eq P w L a table ha hshape2]
      exact ⟨_, rfl, runStages_stageRoots_length P L table htab2 L a le_rfl ha⟩
    · have hL11 : 11 ≤ L := by omega
      have htl : table.length = L - 1 := by
        rcases htlen with h | h
        · exact h
        · omega
      have hn2048 : 2048 ≤ a.length := by
        rw [ha]
        calc (2048:ℕ) = 2 ^ 11 := by norm_num
          _ ≤ 2 ^ L := Nat.pow_le_pow_right (by norm_num) hL11
      have hpow2 : (2:ℕ) ^ L = 2 * 2 ^ (L - 1) := by
        conv_lhs => rw [show L = (L - 1) + 1 by omega]
        rw [pow_succ]
        ring
      have hlen2 : a.length = 2 * 2 ^ (L - 1) := ha.trans hpow2
      have hhalf : a.length / 2 = 2 ^ (L - 1) := by omega
      have hpos : 0 < (2:ℕ) ^ (L - 1) := Nat.pos_pow_of_pos _ (by norm_num)
      obtain ⟨r0, rest, hcons⟩ : ∃ r0 rest, table = r0 :: rest := by
        cases htc : table with
        | nil => rw [htc] at htl; simp at htl; omega
        | cons r0 rest => exact ⟨r0, rest, rfl⟩
      rw [forward_fft.eq_def]
      dsimp only
      rw [if_neg (by omega), if_neg (by omega),
        if_neg (by rw [ha, htl, show L - 1 + 1 = L by omega]; omega),
        size_dispatch_default _ _ _ _ _ _ _ _ _ a.length (by omega), hcons]
      dsimp only
      have hr0 : r0.length = 2 ^ (L - 1) := by
        have h0 := htab2 0 (by omega)
        rw [hcons] at h0
        simpa using h0
      obtain ⟨a1, ha1, ha1len⟩ := forward_pass_completes P (2 ^ w)
        (2 ^ (L - 1)) a r0 hlen2 hpos hr0
      rw [ha1]
      dsimp only
      have hta : (a1.take (2 ^ (L - 1))).length = 2 ^ (L - 1) := by
        simp
        omega
      have hda : (a1.drop (2 ^ (L - 1))).length = 2 ^ (L - 1) := by
        simp
        omega
      have hresttab : ∀ i, i < (L - 1) - 1 →
          (rest.getD i []).length = 2 ^ (L - 1) / 2 ^ (i + 1) := by
        intro i hi
        have hlev := htab (i + 1) (by omega)
        rw [hcons, List.getD_cons_succ] at hlev
        rw [hlev, Nat.pow_div (by omega) (by norm_num),
          Nat.pow_div (by omega) (by norm_num)]
        congr 1
        omega
      have hrestlen : rest.length = (L - 1) - 1 := by
        rw [hcons] at htl
        simp at htl
        omega
      obtain ⟨b, hb, hblen⟩ := IH (L - 1) (by omega) (a1.take (2 ^ (L - 1)))
        rest (by omega) hta hresttab (Or.inl hrestlen)
      obtain ⟨c, hc, hclen⟩ := IH (L - 1) (by omega) (a1.drop (2 ^ (L - 1)))
        rest (by omega) hda hresttab (Or.inl hrestlen)
      rw [hhalf, hb]
      dsimp only
      rw [hc]
      dsimp only
      refine ⟨b ++ c, rfl, ?_⟩
      rw [List.length_append, hblen, hclen, hpow2]
      omega

/-- Witness for the amended C8 at `L = 2`, buffer `[1, 2, 3, 4]`, table
`[[1, 4]]`. -/
theorem c8_table_levels_complete_witness :
    ∃ out, forward_fft 17 (2 ^ 0) [] [] [1, 2, 3, 4] [[1, 4]] = .ok out
      ∧ out.length = 2 ^ 2 :=
  c8_table_levels_complete 17 0 [] [] 2 [1, 2, 3, 4] [[1, 4]] (by norm_num)
    rfl
    (by
      intro i hi
      have hi0 : i = 0 := by omega
      subst hi0
      decide)
    (Or.inl rfl)

/-- If two subsampled twiddles with `k2 ≤ k1` were additive inverses, then
some `g ^ d` with `d < 2 ^ (L - 1)` would equal `-1`, forcing `d = 0` and
hence `1 = -1`, impossible for a prime `P ≠ 2`. -/
theorem c4_no_neg_pair_aux (P g L i k1 k2 : ℕ) (hP : Nat.Prime P)
    (hP2 : P ≠ 2) (hL : 1 ≤ L) (hord : orderOf ((g : ℕ) : ZMod P) = 2 ^ L)
    (hi : i < L - 1) (hk1 : k1 < 2 ^ (L - 1 - i)) (hge : k2 ≤ k1)
    (heq : ((g : ℕ) : ZMod P) ^ (k1 * 2 ^ i)
      = -((g : ℕ) : ZMod P) ^ (k2 * 2 ^ i)) : False := by
  haveI : Fact (Nat.Prime P) := ⟨hP⟩
  have hPpos : 0 < P := hP.pos
  haveI : NeZero P := ⟨by omega⟩
  have hg1 : ((g : ℕ) : ZMod P) ^ (2 ^ L) = 1 := by
    rw [← hord]
    exact pow_orderOf_eq_one _
  have hgne : ((g : ℕ) : ZMod P) ≠ 0 := by
    intro h0
    rw [h0, zero_pow (by positivity)] at hg1
    exact zero_ne_one hg1
  have hsplit : k1 * 2 ^ i = (k1 - k2) * 2 ^ i + k2 * 2 ^ i := by
    rw [← add_mul]
    congr 1
    omega
  rw [hsplit, pow_add] at heq
  have hcancel : ((g : ℕ) : ZMod P) ^ ((k1 - k2) * 2 ^ i) = -1 :=
    mul_right_cancel₀ (pow_ne_zero _ hgne) (by rw [heq]; ring)
  have h2i : 0 < (2:ℕ) ^ i := Nat.pos_pow_of_pos _ (by norm_num)
  have hdlt : (k1 - k2) * 2 ^ i < 2 ^ (L - 1) := by
    have hstep : (k1 - k2) * 2 ^ i < 2 ^ (L - 1 - i) * 2 ^ i :=
      (mul_lt_mul_right h2i).mpr (by omega)
    have hjoin : (2:ℕ) ^ (L - 1 - i) * 2 ^ i = 2 ^ (L - 1) := by
      rw [← pow_add]
      congr 1
      omega
    omega
  have hsq : ((g : ℕ) : ZMod P) ^ (2 * ((k1 - k2) * 2 ^ i)) = 1 := by
    rw [two_mul, pow_add, hcancel]
    ring
  have hdvd : 2 ^ L ∣ 2 * ((k1 - k2) * 2 ^ i) :=
    hord ▸ orderOf_dvd_of_pow_eq_one hsq
  have h2d : 2 * ((k1 - k2) * 2 ^ i) < 2 ^ L := by
    have hL2 : (2:ℕ) ^ L = 2 * 2 ^ (L - 1) := by
      conv_lhs => rw [show L = (L - 1) + 1 by omega]
      rw [pow_succ]
      ring
    omega
  have hd0 : (k1 - k2) * 2 ^ i = 0 := by
    have := Nat.eq_zero_of_dvd_of_lt hdvd h2d
    omega
  rw [hd0, pow_zero] at hcancel
  have hadd : (1 : ZMod P) + 1 = 0 := by nth_rewrite 2 [hcancel]; ring
  have h2n : ((2 : ℕ) : ZMod P) = 0 := by
    push_cast
    rw [show (2 : ZMod P) = 1 + 1 by norm_num, hadd]
  have hPd : P ∣ 2 := (ZMod.natCast_zmod_eq_zero_iff_dvd 2 P).mp h2n
  exact hP2 ((Nat.prime_dvd_prime_iff_eq hP Nat.prime_two).mp hPd)

/-- C4: for `n = 2 ^ L` and a generator `g` of multiplicative order `n`
modulo the odd prime `P`, `roots_of_unity_table(n)` has exactly `L - 1`
levels; level `i` is every `2^i`-th element of `[g^0, ..., g^(n/2 - 1)]`
(equivalently `[g^0, g^(2^i), g^(2·2^i), ...]`); level `i` has exactly
`n / 2^(i+1)` entries; every entry `e` of level `i` satisfies
`e^(n / 2^i) = 1`; and no two entries of a level are additive inverses of
one another. -/
theorem c4_roots_of_unity_table (P g L : ℕ) (hP : Nat.Prime P)
    (hP2 : P ≠ 2) (hL : 1 ≤ L)
    (hord : orderOf ((g : ℕ) : ZMod P) = 2 ^ L) :
    (roots_of_unity_table P g (2 ^ L)).length = L - 1
    ∧ (∀ i, i < L - 1 →
        (roots_of_unity_table P g (2 ^ L)).getD i []
          = stepBy (2 ^ i) (fpowers P g (2 ^ L / 2)))
    ∧ (∀ i, i < L - 1 →
        (roots_of_unity_table P g (2 ^ L)).getD i []
          = (List.range (2 ^ L / 2 ^ (i + 1))).map (fun k => fpow P g (k * 2 ^ i)))
    ∧ (∀ i, i < L - 1 →
        ((roots_of_unity_table P g (2 ^ L)).getD i []).length
          = 2 ^ L / 2 ^ (i + 1))
    ∧ (∀ i, i < L - 1 → ∀ e ∈ (roots_of_unity_table P g (2 ^ L)).getD i [],
        ((e : ℕ) : ZMod P) ^ (2 ^ L / 2 ^ i) = 1)
    ∧ (∀ i, i < L - 1 → ∀ e1 ∈ (roots_of_unity_table P g (2 ^ L)).getD i [],
        ∀ e2 ∈ (roots_of_unity_table P g (2 ^ L)).getD i [],
          ((e1 : ℕ) : ZMod P) ≠ -((e2 : ℕ) : ZMod P)) := by
  have htab : roots_of_unity_table P g (2 ^ L) = difTable P g L :=
    table_eq_difTable P g L
  have hdiv : ∀ i, i < L - 1 → 2 ^ L / 2 ^ (i + 1) = 2 ^ (L - 1 - i) := by
    intro i hi
    rw [Nat.pow_div (by omega) (by norm_num)]
    congr 1
    omega
  have hclosed : ∀ i, i < L - 1 →
      (roots_of_unity_table P g (2 ^ L)).getD i []
        = (List.range (2 ^ L / 2 ^ (i + 1))).map (fun k => fpow P g (k * 2 ^ i)) := by
    intro i hi
    rw [htab, difTable_getD P g L i hi, fpowers_sqIter, hdiv i hi]
  refine ⟨by rw [htab, difTable_length], ?_, hclosed, ?_, ?_, ?_⟩
  · intro i hi
    have h2L : (2:ℕ) ^ L = 2 ^ (L - 1) * 2 := by
      conv_lhs => rw [show L = (L - 1) + 1 by omega]
      rw [pow_succ]
    have h2 : (2:ℕ) ^ L / 2 = 2 ^ (L - 1) := by omega
    have hmul : (2:ℕ) ^ (L - 1 - i) * 2 ^ i = 2 ^ (L - 1) := by
      rw [← pow_add]
      congr 1
      omega
    rw [hclosed i hi, h2, ← hmul,
      stepBy_fpowers P g (2 ^ i) (2 ^ (L - 1 - i)) Nat.one_le_two_pow,
      hdiv i hi]
  · intro i hi
    rw [hclosed i hi, List.length_map, List.length_range]
  · intro i hi e he
    rw [hclosed i hi] at he
    obtain ⟨k, hk, rfl⟩ := List.mem_map.mp he
    rw [cast_fpow, ← pow_mul]
    have hdiv2 : 2 ^ L / 2 ^ i = 2 ^ (L - i) := by
      rw [Nat.pow_div (by omega) (by norm_num)]
    rw [hdiv2]
    have hexp : k * 2 ^ i * 2 ^ (L - i) = 2 ^ L * k := by
      rw [mul_assoc, ← pow_add, show i + (L - i) = L by omega]
      ring
    rw [hexp, pow_mul, ← hord, pow_orderOf_eq_one, one_pow]
  · intro i hi e1 he1 e2 he2 heq
    rw [hclosed i hi] at he1 he2
    obtain ⟨k1, hk1, rfl⟩ := List.mem_map.mp he1
    obtain ⟨k2, hk2, rfl⟩ := List.mem_map.mp he2
    rw [List.mem_range, hdiv i hi] at hk1 hk2
    rw [cast_fpow, cast_fpow] at heq
    rcases le_total k2 k1 with hle | hle
    · exact c4_no_neg_pair_aux P g L i k1 k2 hP hP2 hL hord hi hk1 hle heq
    · exact c4_no_neg_pair_aux P g L i k2 k1 hP hP2 hL hord hi hk2 hle
        (by rw [heq, neg_neg])

/-- Witness for C4 at `P = 17`, `g = 2` (order `8 = 2^3`), `L = 3`. -/
theorem c4_roots_of_unity_table_witness :
    (roots_of_unity_table 17 2 (2 ^ 3)).length = 3 - 1
    ∧ (∀ i, i < 3 - 1 →
        (roots_of_unity_table 17 2 (2 ^ 3)).getD i []
          = stepBy (2 ^ i) (fpowers 17 2 (2 ^ 3 / 2)))
    ∧ (∀ i, i < 3 - 1 →
        (roots_of_unity_table 17 2 (2 ^ 3)).getD i []
          = (List.range (2 ^ 3 / 2 ^ (i + 1))).map (fun k => fpow 17 2 (k * 2 ^ i)))
    ∧ (∀ i, i < 3 - 1 →
        ((roots_of_unity_table 17 2 (2 ^ 3)).getD i []).length
          = 2 ^ 3 / 2 ^ (i + 1))
    ∧ (∀ i, i < 3 - 1 → ∀ e ∈ (roots_of_unity_table 17 2 (2 ^ 3)).getD i [],
        ((e : ℕ) : ZMod 17) ^ (2 ^ 3 / 2 ^ i) = 1)
    ∧ (∀ i, i < 3 - 1 → ∀ e1 ∈ (roots_of_unity_table 17 2 (2 ^ 3)).getD i [],
        ∀ e2 ∈ (roots_of_unity_table 17 2 (2 ^ 3)).getD i [],
          ((e1 : ℕ) : ZMod 17) ≠ -((e2 : ℕ) : ZMod 17)) :=
  c4_roots_of_unity_table 17 2 3 (by norm_num) (by norm_num) (by norm_num)
    (by
      haveI : Fact (Nat.Prime 2) := ⟨Nat.prime_two⟩
      exact orderOf_eq_prime_pow (by decide) (by decide))

/-- C1: for a buffer of length `n = 2 ^ L` of canonical residues and the
table `roots_of_unity_table(n)` built from a generator `g` of order `n`
modulo the prime `P`, `forward_fft` succeeds and leaves the bit-reversed
DFT: entry `i` of the output equals
`∑ j, a_j * g ^ (j * rev(i))` in `ZMod P`, with `rev` the `L`-bit
reversal. -/
theorem c1_fft_is_bitrev_dft (P g w L : ℕ) (r8 r16 a : List ℕ)
    (hP : Nat.Prime P) (hord : orderOf ((g : ℕ) : ZMod P) = 2 ^ L)
    (ha : a.length = 2 ^ L) (hc : ∀ x ∈ a, x < P) :
    ∃ out, forward_fft P (2 ^ w) r8 r16 a (roots_of_unity_table P g (2 ^ L))
        = .ok out
      ∧ out.length = 2 ^ L
      ∧ (∀ x ∈ out, x < P)
      ∧ ∀ i, i < 2 ^ L →
          ((out.getD i 0 : ℕ) : ZMod P)
            = ∑ j in Finset.range (2 ^ L),
                ((a.getD j 0 : ℕ) : ZMod P) * ((g : ℕ) : ZMod P) ^ (j * bitrev L i) := by
  have hP1 : 1 < P := hP.one_lt
  have hfft := fft_eq_difNat P w hP1 r8 r16 L g a ha
  rw [table_eq_difTable]
  refine ⟨difNat P g L a, hfft, difNat_length P L g a ha,
    difNat_lt P (by omega) L g a hc, ?_⟩
  intro i hi
  have hneg : L = 0 ∨ ((g : ℕ) : ZMod P) ^ (2 ^ (L - 1)) = -1 := by
    rcases Nat.eq_zero_or_pos L with h0 | hpos
    · exact Or.inl h0
    · exact Or.inr (pow_half_order_eq_neg_one P L g hP hord (by omega))
  have hgd : (((difNat P g L a).getD i 0 : ℕ) : ZMod P)
      = (castL P (difNat P g L a)).getD i 0 := (castL_getD P _ i).symm
  rw [hgd, castL_difNat P (by omega) L g a hc,
    difZ_dft L ((g : ℕ) : ZMod P) (castL P a) (by rw [castL_length, ha])
      hneg i hi]
  unfold dft
  rw [castL_length, ha]
  refine Finset.sum_congr rfl (fun j _ => ?_)
  rw [castL_getD]

/-- Witness for C1 at `P = 17`, `g = 4` (order `4 = 2^2`), `L = 2`,
buffer `[1, 2, 3, 4]`. -/
theorem c1_fft_is_bitrev_dft_witness :
    ∃ out, forward_fft 17 (2 ^ 0) [] [] [1, 2, 3, 4]
        (roots_of_unity_table 17 4 (2 ^ 2)) = .ok out
      ∧ out.length = 2 ^ 2
      ∧ (∀ x ∈ out, x < 17)
      ∧ ∀ i, i < 2 ^ 2 →
          ((out.getD i 0 : ℕ) : ZMod 17)
            = ∑ j in Finset.range (2 ^ 2),
                (([1, 2, 3, 4].getD j 0 : ℕ) : ZMod 17)
                  * ((4 : ℕ) : ZMod 17) ^ (j * bitrev 2 i) :=
  c1_fft_is_bitrev_dft 17 4 0 2 [] [] [1, 2, 3, 4] (by norm_num)
    (by
      haveI : Fact (Nat.Prime 2) := ⟨Nat.prime_two⟩
      exact orderOf_eq_prime_pow (by decide) (by decide))
    rfl (by decide)

/-- `forward_4` with the constant `w4 = g mod P` computes the two-stage
DIF recursion for the generator `g`. -/
theorem forward_4_difNat (P g w4 : ℕ) (hP : 1 < P) (hw : w4 = g % P)
    (a : List ℕ) (ha : a.length = 4) :
    forward_4 P w4 a = .ok (difNat P g 2 a) := by
  obtain ⟨a0, a1, a2, a3, rfl⟩ := length_eq_four ha
  have h1 : (1 : ℕ) % P = 1 := one_mod_eq_one P hP
  have hg1 : fpow P g 1 = w4 := by
    unfold fpow
    rw [pow_one]
    exact hw.symm
  have hdif : difNat P g 2 [a0, a1, a2, a3]
      = [fadd P (fadd P a0 a2) (fadd P a1 a3),
         fmul P (fsub P (fadd P a0 a2) (fadd P a1 a3)) (fpow P (g * g % P) 0),
         fadd P (fmul P (fsub P a0 a2) (fpow P g 0))
           (fmul P (fsub P a1 a3) (fpow P g 1)),
         fmul P (fsub P (fmul P (fsub P a0 a2) (fpow P g 0))
           (fmul P (fsub P a1 a3) (fpow P g 1))) (fpow P (g * g % P) 0)] := rfl
  rw [hdif]
  simp only [fpow_zero, h1, hg1]
  rw [fmul_one_right P _ (fsub_lt P _ _ (by omega)),
    fmul_one_right P _ (fsub_lt P _ _ (by omega)),
    ← bfly2_eq_fmul_fsub,
    fmul_one_right P _ (fsub_lt P _ _ (by omega))]
  rfl

/-- `forward_8` with the constant table `ROOTS_8 = [g^0, g^1, g^2, g^3]`
computes the three-stage DIF recursion for the generator `g`. -/
theorem forward_8_difNat (P g w : ℕ) (hP : 1 < P) (a : List ℕ)
    (ha : a.length = 8) :
    forward_8 P (2 ^ w) (fpowers P g 4) a = .ok (difNat P g 3 a) := by
  unfold forward_8
  rw [if_neg (by omega),
    forward_pass_eq P (2 ^ w) 4 a (fpowers P g 4) hP (by omega) (by norm_num)
      (fpowers_length _ _ _)
      (by rw [fpowers_getD P g 4 0 (by norm_num), fpow_zero,
        one_mod_eq_one P hP])]
  dsimp only
  have ht : (a.take 4).length = 4 := by simp; omega
  have hd : (a.drop 4).length = 4 := by simp; omega
  have htl : (passTop P (a.take 4) (a.drop 4)).length = 4 := by
    rw [passTop_length, ht, hd]
    norm_num
  have hta : (passTailP P (a.take 4) (a.drop 4) (fpowers P g 4)).length = 4 := by
    rw [passTailP_length, ht, hd, fpowers_length]
    norm_num
  unfold seqHalves
  rw [List.take_left' htl, List.drop_left' htl,
    fpowers_getD P g 4 2 (by norm_num),
    forward_4_difNat P (g * g % P) (fpow P g 2) hP
      (by unfold fpow; rw [pow_two, Nat.mod_mod_of_dvd _ dvd_rfl]) _ htl,
    forward_4_difNat P (g * g % P) (fpow P g 2) hP
      (by unfold fpow; rw [pow_two, Nat.mod_mod_of_dvd _ dvd_rfl]) _ hta]
  dsimp only
  have hfin : difNat P g 3 a
      = difNat P (g * g % P) 2 (passTop P (a.take 4) (a.drop 4))
        ++ difNat P (g * g % P) 2
            (passTailP P (a.take 4) (a.drop 4) (fpowers P g 4)) := by
    have h := difNat_succ P g 2 a
    norm_num at h
    exact h
  rw [hfin]

/-- `forward_16` with `ROOTS_16` the powers of `g` and `ROOTS_8` the
powers of `g^2` computes the four-stage DIF recursion. -/
theorem forward_16_difNat (P g w : ℕ) (hP : 1 < P) (a : List ℕ)
    (ha : a.length = 16) :
    forward_16 P (2 ^ w) (fpowers P (g * g % P) 4) (fpowers P g 8) a
      = .ok (difNat P g 4 a) := by
  unfold forward_16
  rw [if_neg (by omega),
    forward_pass_eq P (2 ^ w) 8 a (fpowers P g 8) hP (by omega) (by norm_num)
      (fpowers_length _ _ _)
      (by rw [fpowers_getD P g 8 0 (by norm_num), fpow_zero,
        one_mod_eq_one P hP])]
  dsimp only
  have ht : (a.take 8).length = 8 := by simp; omega
  have hd : (a.drop 8).length = 8 := by simp; omega
  have htl : (passTop P (a.take 8) (a.drop 8)).length = 8 := by
    rw [passTop_length, ht, hd]
    norm_num
  have hta : (passTailP P (a.take 8) (a.drop 8) (fpowers P g 8)).length = 8 := by
    rw [passTailP_length, ht, hd, fpowers_length]
    norm_num
  unfold seqHalves
  rw [List.take_left' htl, List.drop_left' htl,
    forward_8_difNat P (g * g % P) w hP _ htl,
    forward_8_difNat P (g * g % P) w hP _ hta]
  dsimp only
  have hfin : difNat P g 4 a
      = difNat P (g * g % P) 3 (passTop P (a.take 8) (a.drop 8))
        ++ difNat P (g * g % P) 3
            (passTailP P (a.take 8) (a.drop 8) (fpowers P g 8)) := by
    have h := difNat_succ P g 3 a
    norm_num at h
    exact h
  rw [hfin]

/-- `forward_32` with `ROOTS_8`/`ROOTS_16` two and one squarings down the
chain from `g` and the 5-level table of `g` computes the five-stage DIF
recursion. -/
theorem forward_32_difNat (P g w : ℕ) (hP : 1 < P) (a : List ℕ)
    (ha : a.length = 32) :
    forward_32 P (2 ^ w) (fpowers P (sqIter P g 2) 4)
        (fpowers P (sqIter P g 1) 8) a (difTable P g 5)
      = .ok (difNat P g 5 a) := by
  have hcons : difTable P g 5 = fpowers P g 16 :: difTable P (g * g % P) 4 := by
    have h := difTable_cons P g 5 (by norm_num)
    norm_num at h
    exact h
  unfold forward_32
  rw [if_neg (by omega), hcons]
  dsimp only
  rw [forward_pass_eq P (2 ^ w) 16 a (fpowers P g 16) hP (by omega)
      (by norm_num) (fpowers_length _ _ _)
      (by rw [fpowers_getD P g 16 0 (by norm_num), fpow_zero,
        one_mod_eq_one P hP])]
  dsimp only
  have ht : (a.take 16).length = 16 := by simp; omega
  have hd : (a.drop 16).length = 16 := by simp; omega
  have htl : (passTop P (a.take 16) (a.drop 16)).length = 16 := by
    rw [passTop_length, ht, hd]
    norm_num
  have hta : (passTailP P (a.take 16) (a.drop 16) (fpowers P g 16)).length = 16 := by
    rw [passTailP_length, ht, hd, fpowers_length]
    norm_num
  unfold seqHalves
  rw [List.take_left' htl, List.drop_left' htl,
    show sqIter P g 2 = (g * g % P) * (g * g % P) % P from rfl,
    show sqIter P g 1 = g * g % P from rfl,
    forward_16_difNat P (g * g % P) w hP _ htl,
    forward_16_difNat P (g * g % P) w hP _ hta]
  dsimp only
  have hfin : difNat P g 5 a
      = difNat P (g * g % P) 4 (passTop P (a.take 16) (a.drop 16))
        ++ difNat P (g * g % P) 4
            (passTailP P (a.take 16) (a.drop 16) (fpowers P g 16)) := by
    have h := difNat_succ P g 4 a
    norm_num at h
    exact h
  rw [hfin]

/-- `forward_64`: one pass with the table head, then two `forward_32`
runs on the halves with the tail, computing the six-stage DIF
recursion. -/
theorem forward_64_difNat (P g w : ℕ) (hP : 1 < P) (a : List ℕ)
    (ha : a.length = 64) :
    forward_64 P (2 ^ w) (fpowers P (sqIter P g 3) 4)
        (fpowers P (sqIter P g 2) 8) a (difTable P g 6)
      = .ok (difNat P g 6 a) := by
  have hcons : difTable P g 6 = fpowers P g 32 :: difTable P (g * g % P) 5 := by
    have h := difTable_cons P g 6 (by norm_num)
    norm_num at h
    exact h
  unfold forward_64
  rw [if_neg (by omega), hcons]
  dsimp only
  rw [forward_pass_eq P (2 ^ w) 32 a (fpowers P g 32) hP (by omega)
      (by norm_num) (fpowers_length _ _ _)
      (by rw [fpowers_getD P g 32 0 (by norm_num), fpow_zero,
        one_mod_eq_one P hP])]
  dsimp only
  have ht : (a.take 32).length = 32 := by simp; omega
  have hd : (a.drop 32).length = 32 := by simp; omega
  have htl : (passTop P (a.take 32) (a.drop 32)).length = 32 := by
    rw [passTop_length, ht, hd]
    norm_num
  have hta : (passTailP P (a.take 32) (a.drop 32) (fpowers P g 32)).length = 32 := by
    rw [passTailP_length, ht, hd, fpowers_length]
    norm_num
  unfold seqHalves
  dsimp only
  rw [List.take_left' htl, List.drop_left' htl,
    show sqIter P g 3 = sqIter P (g * g % P) 2 from rfl,
    show sqIter P g 2 = sqIter P (g * g % P) 1 from rfl,
    forward_32_difNat P (g * g % P) w hP _ htl,
    forward_32_difNat P (g * g % P) w hP _ hta]
  dsimp only
  have hfin : difNat P g 6 a
      = difNat P (g * g % P) 5 (passTop P (a.take 32) (a.drop 32))
        ++ difNat P (g * g % P) 5
            (passTailP P (a.take 32) (a.drop 32) (fpowers P g 32)) := by
    have h := difNat_succ P g 5 a
    norm_num at h
    exact h
  rw [hfin]

/-- `forward_128`: one pass with the table head, then two `forward_64`
runs on the halves with the tail. -/
theorem forward_128_difNat (P g w : ℕ) (hP : 1 < P) (a : List ℕ)
    (ha : a.length = 128) :
    forward_128 P (2 ^ w) (fpowers P (sqIter P g 4) 4)
        (fpowers P (sqIter P g 3) 8) a (difTable P g 7)
      = .ok (difNat P g 7 a) := by
  have hcons : difTable P g 7 = fpowers P g 64 :: difTable P (g * g % P) 6 := by
    have h := difTable_cons P g 7 (by norm_num)
    norm_num at h
    exact h
  unfold forward_128
  rw [if_neg (by omega), hcons]
  dsimp only
  rw [forward_pass_eq P (2 ^ w) 64 a (fpowers P g 64) hP (by omega)
      (by norm_num) (fpowers_length _ _ _)
      (by rw [fpowers_getD P g 64 0 (by norm_num), fpow_zero,
        one_mod_eq_one P hP])]
  dsimp only
  have ht : (a.take 64).length = 64 := by simp; omega
  have hd : (a.drop 64).length = 64 := by simp; omega
  have htl : (passTop P (a.take 64) (a.drop 64)).length = 64 := by
    rw [passTop_length, ht, hd]
    norm_num
  have hta : (passTailP P (a.take 64) (a.drop 64) (fpowers P g 64)).length = 64 := by
    rw [passTailP_length, ht, hd, fpowers_length]
    norm_num
  unfold seqHalves
  dsimp only
  rw [List.take_left' htl, List.drop_left' htl,
    show sqIter P g 4 = sqIter P (g * g % P) 3 from rfl,
    show sqIter P g 3 = sqIter P (g * g % P) 2 from rfl,
    forward_64_difNat P (g * g % P) w hP _ htl,
    forward_64_difNat P (g * g % P) w hP _ hta]
  dsimp only
  have hfin : difNat P g 7 a
      = difNat P (g * g % P) 6 (passTop P (a.take 64) (a.drop 64))
        ++ difNat P (g * g % P) 6
            (passTailP P (a.take 64) (a.drop 64) (fpowers P g 64)) := by
    have h := difNat_succ P g 6 a
    norm_num at h
    exact h
  rw [hfin]

/-- `forward_256`: one pass with the table head, then two `forward_128`
runs on the halves with the tail. -/
theorem forward_256_difNat (P g w : ℕ) (hP : 1 < P) (a : List ℕ)
    (ha : a.length = 256) :
    forward_256 P (2 ^ w) (fpowers P (sqIter P g 5) 4)
        (fpowers P (sqIter P g 4) 8) a (difTable P g 8)
      = .ok (difNat P g 8 a) := by
  have hcons : difTable P g 8 = fpowers P g 128 :: difTable P (g * g % P) 7 := by
    have h := difTable_cons P g 8 (by norm_num)
    norm_num at h
    exact h
  unfold forward_256
  rw [if_neg (by omega), hcons]
  dsimp only
  rw [forward_pass_eq P (2 ^ w) 128 a (fpowers P g 128) hP (by omega)
      (by norm_num) (fpowers_length _ _ _)
      (by rw [fpowers_getD P g 128 0 (by norm_num), fpow_zero,
        one_mod_eq_one P hP])]
  dsimp only
  have ht : (a.take 128).length = 128 := by simp; omega
  have hd : (a.drop 128).length = 128 := by simp; omega
  have htl : (passTop P (a.take 128) (a.drop 128)).length = 128 := by
    rw [passTop_length, ht, hd]
    norm_num
  have hta : (passTailP P (a.take 128) (a.drop 128) (fpowers P g 128)).length = 128 := by
    rw [passTailP_length, ht, hd, fpowers_length]
    norm_num
  unfold seqHalves
  dsimp only
  rw [List.take_left' htl, List.drop_left' htl,
    show sqIter P g 5 = sqIter P (g * g % P) 4 from rfl,
    show sqIter P g 4 = sqIter P (g * g % P) 3 from rfl,
    forward_128_difNat P (g * g % P) w hP _ htl,
    forward_128_difNat P (g * g % P) w hP _ hta]
  dsimp only
  have hfin : difNat P g 8 a
      = difNat P (g * g % P) 7 (passTop P (a.take 128) (a.drop 128))
        ++ difNat P (g * g % P) 7
            (passTailP P (a.take 128) (a.drop 128) (fpowers P g 128)) := by
    have h := difNat_succ P g 7 a
    norm_num at h
    exact h
  rw [hfin]

/-- Iterated squaring follows the two-adic generator chain downwards. -/
theorem sqIter_chain (P : ℕ) (gen : ℕ → ℕ)
    (hchain : ∀ k, 2 ≤ k → k ≤ 7 → gen k = gen (k + 1) * gen (k + 1) % P) :
    ∀ (j m : ℕ), 2 ≤ m → m + j ≤ 8 → sqIter P (gen (m + j)) j = gen m
  | 0, m, _, _ => rfl
  | j + 1, m, h2, h8 => by
    show sqIter P (gen (m + j + 1) * gen (m + j + 1) % P) j = gen m
    rw [← hchain (m + j) (by omega) (by omega)]
    exact sqIter_chain P gen hchain j m h2 (by omega)

/-- C5: for every size `n = 2 ^ L` in {4, ..., 256}, on a buffer of
length `n` and the matching twiddle table (the table of the level-`L`
generator of the two-adic chain `gen`, with the baked kernel constants
`ROOTS_8`/`ROOTS_16` the powers of `gen 3`/`gen 4`), the unrolled kernel
taken by the size dispatch and the breadth-first `forward_small` produce
bit-identical results. -/
theorem c5_kernels_match_forward_small (P w L : ℕ) (gen : ℕ → ℕ)
    (hP : 1 < P)
    (hchain : ∀ k, 2 ≤ k → k ≤ 7 → gen k = gen (k + 1) * gen (k + 1) % P)
    (hL2 : 2 ≤ L) (hL8 : L ≤ 8) (a : List ℕ) (ha : a.length = 2 ^ L) :
    kernel_dispatch P (2 ^ w) (fpowers P (gen 3) 4) (fpowers P (gen 4) 8) a
        (roots_of_unity_table P (gen L) (2 ^ L))
      = forward_small P (2 ^ w) a (roots_of_unity_table P (gen L) (2 ^ L)) := by
  rw [table_eq_difTable, forward_small_difNat P w L (gen L) a ha]
  interval_cases L
  · have ha4 : a.length = 4 := by rw [ha]; norm_num
    unfold kernel_dispatch
    rw [if_neg (by omega), if_neg (by omega), if_neg (by omega),
      if_neg (by omega), if_neg (by omega), if_neg (by omega), if_pos ha4,
      fpowers_getD P (gen 3) 4 2 (by norm_num)]
    exact forward_4_difNat P (gen 2) (fpow P (gen 3) 2) hP
      (by
        rw [hchain 2 (by norm_num) (by norm_num), Nat.mod_mod_of_dvd _ dvd_rfl]
        unfold fpow
        rw [pow_two])
      a ha4
  · have ha8 : a.length = 8 := by rw [ha]; norm_num
    unfold kernel_dispatch
    rw [if_neg (by omega), if_neg (by omega), if_neg (by omega),
      if_neg (by omega), if_neg (by omega), if_pos ha8]
    exact forward_8_difNat P (gen 3) w hP a ha8
  · have ha16 : a.length = 16 := by rw [ha]; norm_num
    unfold kernel_dispatch
    rw [if_neg (by omega), if_neg (by omega), if_neg (by omega),
      if_neg (by omega), if_pos ha16, hchain 3 (by norm_num) (by norm_num)]
    exact forward_16_difNat P (gen 4) w hP a ha16
  · have ha32 : a.length = 32 := by rw [ha]; norm_num
    unfold kernel_dispatch
    rw [if_neg (by omega), if_neg (by omega), if_neg (by omega),
      if_pos ha32]
    have h3 : sqIter P (gen 5) 2 = gen 3 := by
      have h := sqIter_chain P gen hchain 2 3 (by norm_num) (by norm_num)
      norm_num at h
      exact h
    have h4 : sqIter P (gen 5) 1 = gen 4 := by
      have h := sqIter_chain P gen hchain 1 4 (by norm_num) (by norm_num)
      norm_num at h
      exact h
    rw [← h3, ← h4]
    exact forward_32_difNat P (gen 5) w hP a ha32
  · have ha64 : a.length = 64 := by rw [ha]; norm_num
    unfold kernel_dispatch
    rw [if_neg (by omega), if_neg (by omega), if_pos ha64]
    have h3 : sqIter P (gen 6) 3 = gen 3 := by
      have h := sqIter_chain P gen hchain 3 3 (by norm_num) (by norm_num)
      norm_num at h
      exact h
    have h4 : sqIter P (gen 6) 2 = gen 4 := by
      have h := sqIter_chain P gen hchain 2 4 (by norm_num) (by norm_num)
      norm_num at h
      exact h
    rw [← h3, ← h4]
    exact forward_64_difNat P (gen 6) w hP a ha64
  · have ha128 : a.length = 128 := by rw [ha]; norm_num
    unfold kernel_dispatch
    rw [if_neg (by omega), if_pos ha128]
    have h3 : sqIter P (gen 7) 4 = gen 3 := by
      have h := sqIter_chain P gen hchain 4 3 (by norm_num) (by norm_num)
      norm_num at h
      exact h
    have h4 : sqIter P (gen 7) 3 = gen 4 := by
      have h := sqIter_chain P gen hchain 3 4 (by norm_num) (by norm_num)
      norm_num at h
      exact h
    rw [← h3, ← h4]
    exact forward_128_difNat P (gen 7) w hP a ha128
  · have ha256 : a.length = 256 := by rw [ha]; norm_num
    unfold kernel_dispatch
    rw [if_pos ha256]
    have h3 : sqIter P (gen 8) 5 = gen 3 := by
      have h := sqIter_chain P gen hchain 5 3 (by norm_num) (by norm_num)
      norm_num at h
      exact h
    have h4 : sqIter P (gen 8) 4 = gen 4 := by
      have h := sqIter_chain P gen hchain 4 4 (by norm_num) (by norm_num)
      norm_num at h
      exact h
    rw [← h3, ← h4]
    exact forward_256_difNat P (gen 8) w hP a ha256

/-- Witness for C5 at `P = 17`, the constant chain `gen ≡ 1`, `L = 2`. -/
theorem c5_kernels_match_forward_small_witness :
    kernel_dispatch 17 (2 ^ 0) (fpowers 17 1 4) (fpowers 17 1 8) [1, 2, 3, 4]
        (roots_of_unity_table 17 1 (2 ^ 2))
      = forward_small 17 (2 ^ 0) [1, 2, 3, 4]
          (roots_of_unity_table 17 1 (2 ^ 2)) :=
  c5_kernels_match_forward_small 17 0 2 (fun _ => 1) (by norm_num)
    (fun k h1 h2 => by norm_num) (by norm_num) (by norm_num) [1, 2, 3, 4] rfl

end Plonky3
